import Mathlib

/-!
Verification of the workspace-size calculator core (`src/workspaceSize.ts`).

The development shallowly embeds the TypeScript source:

* `vscode.FileType` is a bitmask over `Nat` (`Unknown = 0`, `File = 1`,
  `Directory = 2`, `SymbolicLink = 64`); the source tests bits with `&`,
  embedded as `&&&`.
* `vscode.Uri` is modelled as a root (authority/workspace-folder identity)
  together with the list of path segments; `Uri.joinPath` appends one
  segment, exactly as `vscode.Uri.joinPath(parent, name)` does for a
  single-segment name.  `toString`, used by the source only as the key of
  the visited set, is injective on such URIs, so the visited set is keyed
  by the `Uri` itself.
* The ambient filesystem (`vscode.workspace.fs`) is an external
  collaborator; it is modelled as a pair of partial functions
  (`readDir` for `readDirectory`, `statFn` for `stat`), `none` meaning the
  call throws.  `listableDirs` lists the (finitely many) directories whose
  listing succeeds; real filesystems are finite, and this field is what
  makes the traversal's termination expressible.
* The cancellation token is observed by the source only through
  `token.isCancellationRequested`; every claim under verification fixes
  the token either as never cancelled or as cancelled before the call, so
  the token is embedded as the constant `Bool` value of that query.
* Asynchrony: each root's traversal owns all of its state, and the stat
  results of a chunk are pure lookups, so the cooperative interleaving of
  the source collapses to the sequential semantics embedded here.
-/

namespace WorkspaceSize

/-- Bitmask constants of `vscode.FileType`. -/
def FileType.Unknown : Nat := 0

/-- File bit of `vscode.FileType`. -/
def FileType.File : Nat := 1

/-- Directory bit of `vscode.FileType`. -/
def FileType.Directory : Nat := 2

/-- SymbolicLink bit of `vscode.FileType`. -/
def FileType.SymbolicLink : Nat := 64

/-- A `vscode.Uri`: the workspace-folder root it belongs to plus the path
segments below that root.  `toString` is injective on these, so the URI
itself serves as the canonical visited-set key of the source. -/
structure Uri where
  root : String
  segments : List String
deriving DecidableEq

/-- `vscode.Uri.joinPath(parent, name)` for a single path segment. -/
def Uri.joinPath (u : Uri) (name : String) : Uri :=
  ⟨u.root, u.segments ++ [name]⟩

/-- The ambient `vscode.workspace.fs`: `readDir u = none` models
`readDirectory` throwing, `statFn u = none` models `stat` throwing.
`listableDirs` enumerates the directories whose listing succeeds (a real
filesystem has finitely many). -/
structure FileSystem where
  readDir : Uri → Option (List (String × Nat))
  statFn : Uri → Option (Nat × Nat)
  listableDirs : List Uri
  readDir_listable : ∀ u es, readDir u = some es → u ∈ listableDirs

/-- Which `onResult` callback a `StatRequest` of the source carries:
`file` for entries whose listing tag had the File bit (and no Directory
bit), `unknown` for entries matching none of the three tested bits. -/
inductive ReqKind where
  | file : ReqKind
  | unknown : ReqKind
deriving DecidableEq

/-- A queued stat request (`StatRequest` of the source); `kind` selects
its `onResult` callback. -/
structure StatRequest where
  uri : Uri
  kind : ReqKind
deriving DecidableEq

/-- Default of the `statConcurrency` option (`DEFAULT_CONCURRENCY`). -/
def DEFAULT_CONCURRENCY : Nat := 32

/-- The calculator object; its only state is the clamped concurrency. -/
structure WorkspaceSizeCalculator where
  statConcurrency : Nat

/-- The constructor: `Math.max(1, options.statConcurrency ?? DEFAULT_CONCURRENCY)`. -/
def WorkspaceSizeCalculator.ofOptions (statConcurrencyOption : Option Nat) :
    WorkspaceSizeCalculator :=
  ⟨max 1 (statConcurrencyOption.getD DEFAULT_CONCURRENCY)⟩

/-- The entry-classification loop (`for (const [name, type] of entries)`)
of `calculateFolderSize`: returns the directory URIs pushed onto the
frontier (in entry order) and the stat requests queued (in entry order).
A set token makes the loop break before processing any entry. -/
def classifyEntries (token : Bool) (currentDirectory : Uri) :
    List (String × Nat) → List Uri × List StatRequest
  | [] => ([], [])
  | (name, type) :: rest =>
    if token then ([], [])
    else
      let entryUri := Uri.joinPath currentDirectory name
      let tail := classifyEntries token currentDirectory rest
      if type &&& FileType.Directory ≠ 0 then
        (entryUri :: tail.1, tail.2)
      else if type &&& FileType.File ≠ 0 then
        (tail.1, ⟨entryUri, ReqKind.file⟩ :: tail.2)
      else if type &&& FileType.SymbolicLink ≠ 0 then
        (tail.1, tail.2)
      else
        (tail.1, ⟨entryUri, ReqKind.unknown⟩ :: tail.2)

/-- The `onResult` callbacks of the source, applied to one stat outcome.
The state is the running total paired with the pending-directory stack
(top of the stack at the head; the source pushes to and pops from the end
of its array, which is the same LIFO discipline). -/
def applyOnResult (req : StatRequest) (st : Option (Nat × Nat))
    (acc : Nat × List Uri) : Nat × List Uri :=
  match st, req.kind with
  | none, _ => acc
  | some (t, s), ReqKind.file =>
    if t &&& FileType.File ≠ 0 then (acc.1 + s, acc.2) else acc
  | some (t, s), ReqKind.unknown =>
    if t &&& FileType.Directory ≠ 0 then (acc.1, req.uri :: acc.2)
    else if t &&& FileType.File ≠ 0 then (acc.1 + s, acc.2)
    else acc

/-- One chunk of `processStatRequests`: all stats of the slice are issued
(each returning `undefined` when the token is already set or the stat
throws), then each result is applied through its `onResult`. -/
def runChunk (fs : FileSystem) (token : Bool) (chunk : List StatRequest)
    (acc : Nat × List Uri) : Nat × List Uri :=
  let stats := chunk.map (fun r => if token then none else fs.statFn r.uri)
  (chunk.zip stats).foldl (fun a p => applyOnResult p.1 p.2 a) acc

/-- The slicing loop of `processStatRequests`
(`for (let index = 0; ...; index += this.statConcurrency)`), as the list
of consecutive slices.  The source guarantees `n ≥ 1` at every call site
(the constructor clamps the option with `Math.max(1, _)`), and for `n ≥ 1`
the inner `max 1 n` equals `n`; the `max` only keeps the model total at
the unreachable argument `n = 0` (where the source's loop would not
advance at all). -/
def chunksOf (n : Nat) : List StatRequest → List (List StatRequest)
  | [] => []
  | x :: xs => ((x :: xs).take (max 1 n)) :: chunksOf n ((x :: xs).drop (max 1 n))
termination_by l => l.length
decreasing_by
  simp only [List.length_drop]
  have h1 : 1 ≤ max 1 n := le_max_left 1 n
  simp only [List.length_cons]
  omega

/-- `processStatRequests`: nothing happens on an empty batch or a set
token; otherwise the chunks are processed in order, each fully awaited
before the next (with a constant token, the per-chunk token re-checks of
the source are the identity). -/
def processStatRequests (fs : FileSystem) (n : Nat) (token : Bool)
    (requests : List StatRequest) (acc : Nat × List Uri) : Nat × List Uri :=
  if requests.isEmpty || token then acc
  else (chunksOf n requests).foldl (fun a c => runChunk fs token c a) acc

/-- Number of listable directories not yet visited; the primary
termination measure of the traversal loop. -/
def remainingDirs (fs : FileSystem) (visited : List Uri) : Nat :=
  (fs.listableDirs.filter (fun d => decide (d ∉ visited))).length

theorem filter_notmem_cons_le (l : List Uri) (u : Uri) (visited : List Uri) :
    (l.filter (fun d => decide (d ∉ u :: visited))).length ≤
      (l.filter (fun d => decide (d ∉ visited))).length := by
  induction l with
  | nil => simp
  | cons d l ih =>
    simp only [List.filter_cons]
    by_cases h1 : d ∈ u :: visited
    · rw [if_neg (by simp only [decide_eq_true_eq]; exact not_not_intro h1)]
      by_cases h2 : d ∈ visited
      · rw [if_neg (by simp only [decide_eq_true_eq]; exact not_not_intro h2)]
        exact ih
      · rw [if_pos (by simpa using h2)]
        exact le_trans ih (by simp)
    · have h2 : d ∉ visited := fun hc => h1 (List.mem_cons_of_mem _ hc)
      rw [if_pos (by simpa using h1), if_pos (by simpa using h2)]
      simpa using ih

theorem filter_notmem_cons_lt (l : List Uri) (u : Uri) (visited : List Uri)
    (hmem : u ∈ l) (hnv : u ∉ visited) :
    (l.filter (fun d => decide (d ∉ u :: visited))).length <
      (l.filter (fun d => decide (d ∉ visited))).length := by
  induction l with
  | nil => cases hmem
  | cons d l ih =>
    simp only [List.filter_cons]
    by_cases hdu : d = u
    · subst hdu
      rw [if_neg (by simp), if_pos (by simpa using hnv)]
      have := filter_notmem_cons_le l d visited
      simp only [List.length_cons]
      omega
    · have hmem' : u ∈ l := by
        rcases List.mem_cons.mp hmem with h | h
        · exact absurd h.symm hdu
        · exact h
      have hih := ih hmem'
      by_cases h2 : d ∈ visited
      · have h1 : d ∈ u :: visited := List.mem_cons_of_mem _ h2
        rw [if_neg (by simp only [decide_eq_true_eq]; exact not_not_intro h1),
          if_neg (by simp only [decide_eq_true_eq]; exact not_not_intro h2)]
        exact hih
      · have h1 : d ∉ u :: visited := by
          intro hc
          rcases List.mem_cons.mp hc with h | h
          · exact hdu h
          · exact h2 h
        rw [if_pos (by simpa using h1), if_pos (by simpa using h2)]
        simp only [List.length_cons]
        omega

theorem filter_notmem_cons_eq (l : List Uri) (u : Uri) (visited : List Uri)
    (hu : u ∉ l) :
    l.filter (fun d => decide (d ∉ u :: visited)) =
      l.filter (fun d => decide (d ∉ visited)) := by
  induction l with
  | nil => rfl
  | cons d l ih =>
    have hdu : d ≠ u := fun h => hu (h ▸ List.mem_cons_self d l)
    have hul : u ∉ l := fun h => hu (List.mem_cons_of_mem _ h)
    simp only [List.filter_cons]
    have hiff : d ∈ u :: visited ↔ d ∈ visited := by
      constructor
      · intro hc
        rcases List.mem_cons.mp hc with h | h
        · exact absurd h hdu
        · exact h
      · exact fun h => List.mem_cons_of_mem _ h
    by_cases h2 : d ∈ visited
    · rw [if_neg (by simp only [decide_eq_true_eq]; exact not_not_intro (hiff.mpr h2)),
        if_neg (by simp only [decide_eq_true_eq]; exact not_not_intro h2)]
      exact ih hul
    · rw [if_pos (by simpa using fun hc => h2 (hiff.mp hc)),
        if_pos (by simpa using h2)]
      rw [ih hul]

theorem remainingDirs_cons_le (fs : FileSystem) (u : Uri) (visited : List Uri) :
    remainingDirs fs (u :: visited) ≤ remainingDirs fs visited :=
  filter_notmem_cons_le fs.listableDirs u visited

theorem remainingDirs_cons_lt (fs : FileSystem) (u : Uri) (visited : List Uri)
    (hmem : u ∈ fs.listableDirs) (hnv : u ∉ visited) :
    remainingDirs fs (u :: visited) < remainingDirs fs visited :=
  filter_notmem_cons_lt fs.listableDirs u visited hmem hnv

/-- The traversal loop of `calculateFolderSize`, instrumented with a ghost
log: the second component records, in order, every directory for which the
loop reached its `readDirectory` call (the `try` at line 53 of the source),
i.e. every newly-visited location.  The first component is exactly the
source's `totalSize` on return.  `pending` is the
`pendingDirectories` stack with its top at the head, `visited` the visited
set. -/
def scanLoopT (fs : FileSystem) (n : Nat) (token : Bool)
    (total : Nat) (pending : List Uri) (visited : List Uri) : Nat × List Uri :=
  if token then (total, [])
  else
    match pending with
    | [] => (total, [])
    | current :: rest =>
      if current ∈ visited then
        scanLoopT fs n token total rest visited
      else
        match hread : fs.readDir current with
        | none =>
          let r := scanLoopT fs n token total rest (current :: visited)
          (r.1, current :: r.2)
        | some entries =>
          let dr := classifyEntries token current entries
          let tp := processStatRequests fs n token dr.2 (total, dr.1.reverse ++ rest)
          let r := scanLoopT fs n token tp.1 tp.2 (current :: visited)
          (r.1, current :: r.2)
termination_by (remainingDirs fs visited, pending.length)
decreasing_by
  · apply Prod.Lex.right
    simp
  · by_cases hmem : current ∈ fs.listableDirs
    · exact Prod.Lex.left _ _ (remainingDirs_cons_lt fs current visited hmem (by assumption))
    · have heq : remainingDirs fs (current :: visited) = remainingDirs fs visited := by
        unfold remainingDirs
        rw [filter_notmem_cons_eq fs.listableDirs current visited hmem]
      rw [heq]
      apply Prod.Lex.right
      simp
  · apply Prod.Lex.left
    exact remainingDirs_cons_lt fs current visited
      (fs.readDir_listable current entries hread) (by assumption)

/-- The traversal loop of `calculateFolderSize`, its returned `totalSize`. -/
def scanLoop (fs : FileSystem) (n : Nat) (token : Bool)
    (total : Nat) (pending : List Uri) (visited : List Uri) : Nat :=
  (scanLoopT fs n token total pending visited).1

/-- `calculateFolderSize(folder, token)`: frontier seeded with the folder's
URI, empty visited set, zero total. -/
def calculateFolderSize (fs : FileSystem) (n : Nat) (folder : Uri)
    (token : Bool) : Nat :=
  scanLoop fs n token 0 [folder] []

/-- `calculate(folders, token)`: one traversal per folder, results paired
with their folder in the caller's order (`Promise.all` keeps input order). -/
def WorkspaceSizeCalculator.calculate (c : WorkspaceSizeCalculator)
    (fs : FileSystem) (folders : List Uri) (token : Bool) : List (Uri × Nat) :=
  folders.map (fun folder => (folder, calculateFolderSize fs c.statConcurrency folder token))

/-- A JavaScript `number` as far as `formatBytes` can observe it: either
non-finite, or an exact value.  Finite doubles are exact rationals, and
every operation `formatBytes` performs on them (division by 1024, which
only decrements the binary exponent, comparisons, and `toFixed`) is exact
on the values the extension passes (non-negative integral byte counts), so
`ℚ` is a faithful carrier. -/
inductive JSNumber where
  | nan : JSNumber
  | posInf : JSNumber
  | negInf : JSNumber
  | finite (q : ℚ) : JSNumber

/-- ECMA-262 `Number.prototype.toFixed(0)`: the integer n minimising
`|n - x|`, ties resolved to the larger n (i.e. the floor of `x + 1/2`);
rendered in decimal. -/
def toFixed0 (v : ℚ) : String :=
  toString (Rat.floor (v + 1 / 2))

/-- ECMA-262 `Number.prototype.toFixed(1)` for non-negative values: the
integer n minimising `|n / 10 - x|` (ties to the larger n), rendered with
the decimal point before its last digit.  `formatBytes` only reaches this
with `0 ≤ v`. -/
def toFixed1 (v : ℚ) : String :=
  toString (Rat.floor (v * 10 + 1 / 2) / 10) ++ "." ++
    toString (Rat.floor (v * 10 + 1 / 2) % 10)

/-- The `units` array of `formatBytes`. -/
def unitsList : List String := ["B", "KB", "MB", "GB", "TB", "PB"]

/-- The `while (value >= 1024 && unitIndex < units.length - 1)` loop of
`formatBytes`, with the remaining number of admissible divisions
(`units.length - 1 - unitIndex`) made the structural fuel; started with
fuel 5 and index 0, `fuel = 0` is exactly `unitIndex = units.length - 1`. -/
def formatLoopAux : Nat → ℚ → Nat → ℚ × Nat
  | 0, value, unitIndex => (value, unitIndex)
  | Nat.succ r, value, unitIndex =>
    if 1024 ≤ value then formatLoopAux r (value / 1024) (unitIndex + 1)
    else (value, unitIndex)

/-- `formatBytes(bytes)` of the source. -/
def formatBytes : JSNumber → String
  | JSNumber.nan => "0 B"
  | JSNumber.posInf => "0 B"
  | JSNumber.negInf => "0 B"
  | JSNumber.finite q =>
    if q < 0 then "0 B"
    else
      let vi := formatLoopAux (unitsList.length - 1) q 0
      let formatted := if 100 ≤ vi.1 ∨ vi.2 = 0 then toFixed0 vi.1 else toFixed1 vi.1
      formatted ++ " " ++ unitsList.getD vi.2 ""

/-! Abstract directory trees.  A `FsTree` is a filesystem value as the
traversal can observe it: a regular file with a size, a symbolic link
(whose listing tag is exactly `FileType.SymbolicLink`, i.e. a link the
provider reports without resolving it), or a directory with a forest of
named children.  `FsForest` is a genuinely mutual (not nested) inductive
so that all functions below are structurally recursive. -/

mutual
inductive FsTree where
  | file (size : Nat) : FsTree
  | link : FsTree
  | dir (entries : FsForest) : FsTree
inductive FsForest where
  | nil : FsForest
  | cons (name : String) (child : FsTree) (rest : FsForest) : FsForest
end

/-- The `vscode.FileType` tag a directory listing reports for a node. -/
def typeOf : FsTree → Nat
  | FsTree.file _ => FileType.File
  | FsTree.link => FileType.SymbolicLink
  | FsTree.dir _ => FileType.Directory

/-- The size field a stat reports for a node (files report their size;
directories and links report 0, which the traversal never reads). -/
def statSizeOf : FsTree → Nat
  | FsTree.file s => s
  | FsTree.link => 0
  | FsTree.dir _ => 0

/-- The children of a forest as an ordinary list. -/
def forestEntries : FsForest → List (String × FsTree)
  | FsForest.nil => []
  | FsForest.cons name t rest => (name, t) :: forestEntries rest

/-- What `readDirectory` returns for a directory with entries `es`. -/
def listingOf (es : FsForest) : List (String × Nat) :=
  (forestEntries es).map (fun e => (e.1, typeOf e.2))

/-- Look a name up in a forest (first match, like the filesystem would). -/
def findEntry : FsForest → String → Option FsTree
  | FsForest.nil, _ => none
  | FsForest.cons name t rest, n => if name = n then some t else findEntry rest n

/-- The subtree of `t` at a relative segment path, if any. -/
def subtreeAt : FsTree → List String → Option FsTree
  | t, [] => some t
  | FsTree.dir es, n :: p =>
    match findEntry es n with
    | some t => subtreeAt t p
    | none => none
  | FsTree.file _, _ :: _ => none
  | FsTree.link, _ :: _ => none

/-! Total size of the regular files in a tree (links and directories
contribute nothing themselves). -/
mutual
def treeSize : FsTree → Nat
  | FsTree.file s => s
  | FsTree.link => 0
  | FsTree.dir es => forestSize es
def forestSize : FsForest → Nat
  | FsForest.nil => 0
  | FsForest.cons _ t rest => treeSize t + forestSize rest
end

/-! Relative paths of all directory nodes of a tree. -/
mutual
def treeDirPaths : FsTree → List (List String)
  | FsTree.file _ => []
  | FsTree.link => []
  | FsTree.dir es => [] :: forestDirPaths es
def forestDirPaths : FsForest → List (List String)
  | FsForest.nil => []
  | FsForest.cons name t rest =>
    (treeDirPaths t).map (fun p => name :: p) ++ forestDirPaths rest
end

/-! Node count, the induction measure for traversal proofs. -/
mutual
def treeNodes : FsTree → Nat
  | FsTree.file _ => 1
  | FsTree.link => 1
  | FsTree.dir es => 1 + forestNodes es
def forestNodes : FsForest → Nat
  | FsForest.nil => 0
  | FsForest.cons _ t rest => treeNodes t + forestNodes rest
end

/-- Whether a forest has a child of the given name. -/
def hasName : FsForest → String → Bool
  | FsForest.nil, _ => false
  | FsForest.cons name _ rest, n => (name == n) || hasName rest n

/-- A legal single path segment: non-empty and without a separator, so
that distinct sibling names denote distinct URIs. -/
def validName (s : String) : Bool := (!s.data.isEmpty) && (!s.data.contains '/')

/-! Well-formed tree: every directory's children carry valid, pairwise
distinct names (what a real directory provides). -/
mutual
def wfTree : FsTree → Bool
  | FsTree.file _ => true
  | FsTree.link => true
  | FsTree.dir es => wfForest es
def wfForest : FsForest → Bool
  | FsForest.nil => true
  | FsForest.cons name t rest =>
    validName name && (!hasName rest name) && wfTree t && wfForest rest
end

/-! A tree containing only regular files and directories. -/
mutual
def linkFreeTree : FsTree → Bool
  | FsTree.file _ => true
  | FsTree.link => false
  | FsTree.dir es => linkFreeForest es
def linkFreeForest : FsForest → Bool
  | FsForest.nil => true
  | FsForest.cons _ t rest => linkFreeTree t && linkFreeForest rest
end

/-- A scan input: one workspace folder per entry, its name (giving the
folder URI) and the forest of its children. -/
def rootUri (r : String × FsForest) : Uri := ⟨r.1, []⟩

/-- Distinct folder identities across the input roots. -/
def distinctRootNames : List (String × FsForest) → Bool
  | [] => true
  | r :: rest => (!(rest.any (fun s => s.1 == r.1))) && distinctRootNames rest

/-- Well-formed multi-root scan input. -/
def wfRoots (roots : List (String × FsForest)) : Bool :=
  distinctRootNames roots && roots.all (fun r => wfForest r.2)

/-- Resolve a URI in the forest of roots. -/
def forestLookup (roots : List (String × FsForest)) (u : Uri) : Option FsTree :=
  match roots.find? (fun r => r.1 == u.root) with
  | some r => subtreeAt (FsTree.dir r.2) u.segments
  | none => none

/-- `readDirectory` over the forest of roots. -/
def forestReadDir (roots : List (String × FsForest)) (u : Uri) :
    Option (List (String × Nat)) :=
  match forestLookup roots u with
  | some (FsTree.dir es) => some (listingOf es)
  | _ => none

/-- `stat` over the forest of roots. -/
def forestStat (roots : List (String × FsForest)) (u : Uri) :
    Option (Nat × Nat) :=
  match forestLookup roots u with
  | some t => some (typeOf t, statSizeOf t)
  | none => none

/-- A URI extended by a relative path. -/
def extendUri (u : Uri) (p : List String) : Uri := ⟨u.root, u.segments ++ p⟩

/-- All directory-node URIs of the forest of roots. -/
def forestListable (roots : List (String × FsForest)) : List Uri :=
  (roots.map (fun r =>
    (treeDirPaths (FsTree.dir r.2)).map (fun p => (⟨r.1, p⟩ : Uri)))).flatten

theorem findEntry_dirPaths (n : String) (t' : FsTree) :
    (es : FsForest) → findEntry es n = some t' →
      ∀ q ∈ treeDirPaths t', n :: q ∈ forestDirPaths es
  | FsForest.nil, h => by cases h
  | FsForest.cons name t rest, h => by
    intro q hq
    unfold findEntry at h
    by_cases hn : name = n
    · rw [if_pos hn] at h
      cases h
      subst hn
      unfold forestDirPaths
      exact List.mem_append_left _ (List.mem_map_of_mem _ hq)
    · rw [if_neg hn] at h
      unfold forestDirPaths
      exact List.mem_append_right _ (findEntry_dirPaths n t' rest h q hq)

theorem subtreeAt_dir_mem_treeDirPaths :
    ∀ (p : List String) (t : FsTree) (es' : FsForest),
      subtreeAt t p = some (FsTree.dir es') → p ∈ treeDirPaths t := by
  intro p
  induction p with
  | nil =>
    intro t es' h
    simp only [subtreeAt] at h
    cases h
    unfold treeDirPaths
    exact List.mem_cons_self _ _
  | cons n p' ih =>
    intro t es' h
    cases t with
    | file s => exact Option.noConfusion h
    | link => exact Option.noConfusion h
    | dir es =>
      cases hf : findEntry es n with
      | none =>
        rw [show subtreeAt (FsTree.dir es) (n :: p') =
          (match findEntry es n with
            | some t0 => subtreeAt t0 p'
            | none => none) from rfl, hf] at h
        exact Option.noConfusion h
      | some t' =>
        rw [show subtreeAt (FsTree.dir es) (n :: p') =
          (match findEntry es n with
            | some t0 => subtreeAt t0 p'
            | none => none) from rfl, hf] at h
        have hp' : p' ∈ treeDirPaths t' := ih t' es' h
        unfold treeDirPaths
        exact List.mem_cons_of_mem _ (findEntry_dirPaths n t' es hf p' hp')

theorem forestReadDir_listable (roots : List (String × FsForest)) :
    ∀ u es, forestReadDir roots u = some es → u ∈ forestListable roots := by
  intro u es h
  unfold forestReadDir at h
  cases hlk : forestLookup roots u with
  | none =>
    rw [hlk] at h
    exact Option.noConfusion h
  | some t =>
    rw [hlk] at h
    cases t with
    | file s => exact Option.noConfusion h
    | link => exact Option.noConfusion h
    | dir es0 =>
      unfold forestLookup at hlk
      cases hf : roots.find? (fun r => r.1 == u.root) with
      | none =>
        rw [hf] at hlk
        exact Option.noConfusion hlk
      | some r =>
        rw [hf] at hlk
        have hroot : r.1 = u.root := by
          have := List.find?_some hf
          exact eq_of_beq this
        have hmem : r ∈ roots := List.mem_of_find?_eq_some hf
        have hseg : u.segments ∈ treeDirPaths (FsTree.dir r.2) :=
          subtreeAt_dir_mem_treeDirPaths u.segments _ es0 hlk
        unfold forestListable
        rw [List.mem_flatten]
        refine ⟨(treeDirPaths (FsTree.dir r.2)).map (fun p => (⟨r.1, p⟩ : Uri)),
          List.mem_map_of_mem _ hmem, ?_⟩
        have : (⟨r.1, u.segments⟩ : Uri) = u := by
          rw [hroot]
        rw [← this]
        exact List.mem_map_of_mem _ hseg

/-- The `vscode.workspace.fs` induced by a forest of workspace folders. -/
def fsOfForest (roots : List (String × FsForest)) : FileSystem where
  readDir := forestReadDir roots
  statFn := forestStat roots
  listableDirs := forestListable roots
  readDir_listable := forestReadDir_listable roots

/-- The frontier pushes `calculateFolderSize` performs while iterating a
directory's entries: one pushed URI per Directory-tagged child, in entry
order. -/
def dirChildSpecs (u : Uri) : List (String × FsTree) → List (Uri × FsForest)
  | [] => []
  | (n, FsTree.dir es) :: rest => (Uri.joinPath u n, es) :: dirChildSpecs u rest
  | _ :: rest => dirChildSpecs u rest

/-- Total size of the regular files directly in an entry list. -/
def fileSizesOf : List (String × FsTree) → Nat
  | [] => 0
  | (_, FsTree.file s) :: rest => s + fileSizesOf rest
  | _ :: rest => fileSizesOf rest

/-- The stat requests `calculateFolderSize` queues while iterating a
directory's entries: one file-kind request per File-tagged child, in
entry order (a well-formed tree never produces Unknown-tagged entries). -/
def fileReqsOf (u : Uri) : List (String × FsTree) → List StatRequest
  | [] => []
  | (n, FsTree.file _) :: rest =>
    ⟨Uri.joinPath u n, ReqKind.file⟩ :: fileReqsOf u rest
  | _ :: rest => fileReqsOf u rest

/-- The territory of a frontier element: the URIs of all directory nodes
of the subtree rooted at `u` with children `es` (including `u` itself). -/
def dirUris (u : Uri) (es : FsForest) : List Uri :=
  (treeDirPaths (FsTree.dir es)).map (fun p => extendUri u p)

/-- The `onResult` summand of one file-kind stat request: the reported
size if the stat succeeds and still carries the File bit, otherwise 0. -/
def fileStatContribution (fs : FileSystem) (u : Uri) : Nat :=
  match fs.statFn u with
  | none => 0
  | some (t, s) => if t &&& FileType.File ≠ 0 then s else 0

/-! Concrete fixtures used by witnesses and counterexamples. -/

/-- A workspace-folder URI used in concrete scenarios. -/
def uriA : Uri := ⟨"a", []⟩

/-- A second concrete URI. -/
def uriB : Uri := ⟨"b", []⟩

/-- A third concrete URI. -/
def uriC : Uri := ⟨"c", []⟩

/-- A filesystem on which every listing and every stat fails. -/
def emptyFs : FileSystem :=
  ⟨fun _ => none, fun _ => none, [], fun _ _ h => Option.noConfusion h⟩

/-- A file-kind stat request for `uriA`. -/
def reqA : StatRequest := ⟨uriA, ReqKind.file⟩

/-- A file-kind stat request for `uriB`. -/
def reqB : StatRequest := ⟨uriB, ReqKind.file⟩

/-- A file-kind stat request for `uriC`. -/
def reqC : StatRequest := ⟨uriC, ReqKind.file⟩

/-- A filesystem where `uriA` and `uriC` stat as files of sizes 5 and 7
while the stat of `uriB` fails (deleted mid-scan). -/
def fsC6 : FileSystem where
  readDir := fun _ => none
  statFn := fun u =>
    if u = uriA then some (FileType.File, 5)
    else if u = uriC then some (FileType.File, 7)
    else none
  listableDirs := []
  readDir_listable := fun _ _ h => Option.noConfusion h

/-- The batch of stat requests of the mid-scan-deletion scenario. -/
def reqsC6 : List StatRequest := [reqA, reqB, reqC]

/-- Root of the symlink-tag scenarios. -/
def uriRoot : Uri := ⟨"ws", []⟩

/-- Child `d` of `uriRoot` (listed with tag SymbolicLink|Directory). -/
def uriD : Uri := ⟨"ws", ["d"]⟩

/-- Child `f` of `uriRoot` (listed with tag SymbolicLink|File). -/
def uriF : Uri := ⟨"ws", ["f"]⟩

/-- File `g` inside `d`. -/
def uriDG : Uri := ⟨"ws", ["d", "g"]⟩

/-- The listing function of the symlink-tag scenario: the root lists a
symlink-to-directory `d` (tag 66) and a symlink-to-file `f` (tag 65);
`d` contains a plain file `g`. -/
def fsC10ReadDir (u : Uri) : Option (List (String × Nat)) :=
  if u = uriRoot then
    some [("d", FileType.SymbolicLink ||| FileType.Directory),
      ("f", FileType.SymbolicLink ||| FileType.File)]
  else if u = uriD then some [("g", FileType.File)]
  else none

/-- A filesystem whose root lists a symlink-to-directory `d` (tag 66) and
a symlink-to-file `f` (tag 65); `d` contains a plain file `g` of size 7,
and the stat of `f` resolves (through the link) to size 5. -/
def fsC10 : FileSystem where
  readDir := fsC10ReadDir
  statFn := fun u =>
    if u = uriF then some (FileType.SymbolicLink ||| FileType.File, 5)
    else if u = uriDG then some (FileType.File, 7)
    else none
  listableDirs := [uriRoot, uriD]
  readDir_listable := by
    intro u es h
    unfold fsC10ReadDir at h
    by_cases h1 : u = uriRoot
    · simp [h1]
    · by_cases h2 : u = uriD
      · simp [h2]
      · rw [if_neg h1, if_neg h2] at h
        exact Option.noConfusion h

/-- The spec's multi-root scenario: folder `A` empty, folder `B` holding
a file `f` of size 500 and a subdirectory with a file `g` of size 300. -/
def rootsW : List (String × FsForest) :=
  [("A", FsForest.nil),
   ("B", FsForest.cons "f" (FsTree.file 500)
      (FsForest.cons "sub"
        (FsTree.dir (FsForest.cons "g" (FsTree.file 300) FsForest.nil))
        FsForest.nil))]

/-- A root holding a pure symbolic link (tag exactly SymbolicLink) next to
a file of size 9. -/
def rootsW2 : List (String × FsForest) :=
  [("R", FsForest.cons "lnk" FsTree.link
    (FsForest.cons "h" (FsTree.file 9) FsForest.nil))]

/-- Root of the symlink-contribution counterexample. -/
def uriRoot2 : Uri := ⟨"ws2", []⟩

/-- The symlink-to-directory entry `l` of `uriRoot2`. -/
def uriL : Uri := ⟨"ws2", ["l"]⟩

/-- The file `g` reached through the link `l`. -/
def uriLG : Uri := ⟨"ws2", ["l", "g"]⟩

/-- The listing function of the counterexample filesystem: the root's
only entry is `l`, reported with tag SymbolicLink|Directory (how a
listing provider reports a symlink to a directory), and listing through
the link reveals one plain file `g`. -/
def fsC2ReadDir (u : Uri) : Option (List (String × Nat)) :=
  if u = uriRoot2 then
    some [("l", FileType.SymbolicLink ||| FileType.Directory)]
  else if u = uriL then some [("g", FileType.File)]
  else none

/-- A filesystem whose root's only file, of size 7, is reachable only
through a directory entry carrying the SymbolicLink tag bit. -/
def fsC2 : FileSystem where
  readDir := fsC2ReadDir
  statFn := fun u => if u = uriLG then some (FileType.File, 7) else none
  listableDirs := [uriRoot2, uriL]
  readDir_listable := by
    intro u es h
    unfold fsC2ReadDir at h
    by_cases h1 : u = uriRoot2
    · simp [h1]
    · by_cases h2 : u = uriL
      · simp [h2]
      · rw [if_neg h1, if_neg h2] at h
        exact Option.noConfusion h

theorem formatLoopAux_stop (r : Nat) (v : ℚ) (i : Nat) (h : v < 1024) :
    formatLoopAux r v i = (v, i) := by
  cases r with
  | zero => rfl
  | succ r =>
    unfold formatLoopAux
    rw [if_neg (not_le.mpr h)]

theorem formatLoopAux_step (r : Nat) (v : ℚ) (i : Nat) (h : 1024 ≤ v) :
    formatLoopAux (r + 1) v i = formatLoopAux r (v / 1024) (i + 1) := by
  have hdef : formatLoopAux (r + 1) v i =
      if 1024 ≤ v then formatLoopAux r (v / 1024) (i + 1) else (v, i) := rfl
  rw [hdef, if_pos h]

/-- The scaling loop of `formatBytes` divides by 1024 exactly as many
times as needed: it returns `v / 1024 ^ k` for the first `k ≤ r` at which
the value drops below 1024 (or the fuel runs out). -/
theorem formatLoopAux_invariant (r : Nat) :
    ∀ (v : ℚ) (i : Nat), ∃ k, k ≤ r ∧
      formatLoopAux r v i = (v / 1024 ^ k, i + k) ∧
      (v / 1024 ^ k < 1024 ∨ k = r) ∧
      (∀ m, m < k → 1024 ≤ v / 1024 ^ m) := by
  induction r with
  | zero =>
    intro v i
    refine ⟨0, le_rfl, ?_, Or.inr rfl, fun m hm => absurd hm (Nat.not_lt_zero m)⟩
    simp [formatLoopAux]
  | succ r ih =>
    intro v i
    by_cases h : 1024 ≤ v
    · obtain ⟨k', hk'le, heq, hstop, hlow⟩ := ih (v / 1024) (i + 1)
      refine ⟨k' + 1, Nat.succ_le_succ hk'le, ?_, ?_, ?_⟩
      · rw [formatLoopAux_step r v i h, heq]
        have hdiv : v / 1024 / 1024 ^ k' = v / 1024 ^ (k' + 1) := by
          rw [div_div, pow_succ, mul_comm (1024 ^ k' : ℚ) 1024]
        rw [hdiv]
        have : i + 1 + k' = i + (k' + 1) := by omega
        rw [this]
      · rcases hstop with hlt | hfuel
        · left
          have hdiv : v / 1024 / 1024 ^ k' = v / 1024 ^ (k' + 1) := by
            rw [div_div, pow_succ, mul_comm (1024 ^ k' : ℚ) 1024]
          rw [← hdiv]
          exact hlt
        · right
          omega
      · intro m hm
        cases m with
        | zero => simpa using h
        | succ m' =>
          have hm' : m' < k' := by omega
          have := hlow m' hm'
          have hdiv : v / 1024 / 1024 ^ m' = v / 1024 ^ (m' + 1) := by
            rw [div_div, pow_succ, mul_comm (1024 ^ m' : ℚ) 1024]
          rw [← hdiv]
          exact this
    · refine ⟨0, Nat.zero_le _, ?_, Or.inl (by simpa using not_le.mp h),
        fun m hm => absurd hm (Nat.not_lt_zero m)⟩
      rw [formatLoopAux_stop _ v i (not_le.mp h)]
      simp

theorem formatBytes_finite (q : ℚ) (hq : ¬ q < 0) :
    formatBytes (JSNumber.finite q) =
      (if 100 ≤ (formatLoopAux 5 q 0).1 ∨ (formatLoopAux 5 q 0).2 = 0
        then toFixed0 (formatLoopAux 5 q 0).1
        else toFixed1 (formatLoopAux 5 q 0).1)
        ++ " " ++ unitsList.getD (formatLoopAux 5 q 0).2 "" := by
  show (if q < 0 then "0 B"
    else
      let vi := formatLoopAux (unitsList.length - 1) q 0
      let formatted := if 100 ≤ vi.1 ∨ vi.2 = 0 then toFixed0 vi.1 else toFixed1 vi.1
      formatted ++ " " ++ unitsList.getD vi.2 "") = _
  rw [if_neg hq]
  rfl

theorem formatBytes_neg (q : ℚ) (hq : q < 0) :
    formatBytes (JSNumber.finite q) = "0 B" := by
  show (if q < 0 then "0 B"
    else
      let vi := formatLoopAux (unitsList.length - 1) q 0
      let formatted := if 100 ≤ vi.1 ∨ vi.2 = 0 then toFixed0 vi.1 else toFixed1 vi.1
      formatted ++ " " ++ unitsList.getD vi.2 "") = "0 B"
  rw [if_pos hq]

theorem formatBytes_val_0 : formatBytes (JSNumber.finite 0) = "0 B" := by
  rw [formatBytes_finite 0 (by norm_num)]
  rw [formatLoopAux_stop 5 0 0 (by norm_num)]
  rw [if_pos (Or.inr rfl)]
  have h1 : toFixed0 0 = "0" := by
    unfold toFixed0
    have : (0 : ℚ) + 1 / 2 = 1 / 2 := by norm_num
    rw [this]
    have hfl : Rat.floor ((1 : ℚ) / 2) = 0 := by norm_num [Rat.floor_def']
    rw [hfl]
    rfl
  rw [h1]
  rfl

theorem formatBytes_val_1023 : formatBytes (JSNumber.finite 1023) = "1023 B" := by
  rw [formatBytes_finite 1023 (by norm_num)]
  rw [formatLoopAux_stop 5 1023 0 (by norm_num)]
  rw [if_pos (Or.inr rfl)]
  have h1 : toFixed0 1023 = "1023" := by
    unfold toFixed0
    have : (1023 : ℚ) + 1 / 2 = 2047 / 2 := by norm_num
    rw [this]
    have hfl : Rat.floor ((2047 : ℚ) / 2) = 1023 := by norm_num [Rat.floor_def']
    rw [hfl]
    rfl
  rw [h1]
  rfl

theorem formatBytes_val_1024 : formatBytes (JSNumber.finite 1024) = "1.0 KB" := by
  rw [formatBytes_finite 1024 (by norm_num)]
  have hloop : formatLoopAux 5 (1024 : ℚ) 0 = (1, 1) := by
    rw [show (5 : Nat) = 4 + 1 from rfl, formatLoopAux_step 4 1024 0 (by norm_num)]
    have : (1024 : ℚ) / 1024 = 1 := by norm_num
    rw [this, formatLoopAux_stop 4 1 1 (by norm_num)]
  rw [hloop]
  rw [if_neg (by norm_num)]
  have h1 : toFixed1 1 = "1.0" := by
    unfold toFixed1
    have : (1 : ℚ) * 10 + 1 / 2 = 21 / 2 := by norm_num
    rw [this]
    have hfl : Rat.floor ((21 : ℚ) / 2) = 10 := by norm_num [Rat.floor_def']
    rw [hfl]
    rfl
  rw [h1]
  rfl

theorem formatBytes_val_1536 : formatBytes (JSNumber.finite 1536) = "1.5 KB" := by
  rw [formatBytes_finite 1536 (by norm_num)]
  have hloop : formatLoopAux 5 (1536 : ℚ) 0 = (3 / 2, 1) := by
    rw [show (5 : Nat) = 4 + 1 from rfl, formatLoopAux_step 4 1536 0 (by norm_num)]
    have : (1536 : ℚ) / 1024 = 3 / 2 := by norm_num
    rw [this, formatLoopAux_stop 4 (3 / 2) 1 (by norm_num)]
  rw [hloop]
  rw [if_neg (by norm_num)]
  have h1 : toFixed1 (3 / 2) = "1.5" := by
    unfold toFixed1
    have : (3 : ℚ) / 2 * 10 + 1 / 2 = 31 / 2 := by norm_num
    rw [this]
    have hfl : Rat.floor ((31 : ℚ) / 2) = 15 := by norm_num [Rat.floor_def']
    rw [hfl]
    rfl
  rw [h1]
  rfl

theorem formatBytes_val_1048576 : formatBytes (JSNumber.finite 1048576) = "1.0 MB" := by
  rw [formatBytes_finite 1048576 (by norm_num)]
  have hloop : formatLoopAux 5 (1048576 : ℚ) 0 = (1, 2) := by
    rw [show (5 : Nat) = 4 + 1 from rfl, formatLoopAux_step 4 1048576 0 (by norm_num)]
    have h1 : (1048576 : ℚ) / 1024 = 1024 := by norm_num
    rw [h1, show (4 : Nat) = 3 + 1 from rfl, formatLoopAux_step 3 1024 1 (by norm_num)]
    have h2 : (1024 : ℚ) / 1024 = 1 := by norm_num
    rw [h2, formatLoopAux_stop 3 1 2 (by norm_num)]
  rw [hloop]
  rw [if_neg (by norm_num)]
  have h1 : toFixed1 1 = "1.0" := by
    unfold toFixed1
    have : (1 : ℚ) * 10 + 1 / 2 = 21 / 2 := by norm_num
    rw [this]
    have hfl : Rat.floor ((21 : ℚ) / 2) = 10 := by norm_num [Rat.floor_def']
    rw [hfl]
    rfl
  rw [h1]
  rfl

theorem scanLoopT_cancelled (fs : FileSystem) (n : Nat) (total : Nat)
    (pending visited : List Uri) :
    scanLoopT fs n true total pending visited = (total, []) := by
  rw [scanLoopT.eq_def]
  simp

theorem scanLoopT_nil (fs : FileSystem) (n : Nat) (total : Nat)
    (visited : List Uri) :
    scanLoopT fs n false total [] visited = (total, []) := by
  rw [scanLoopT.eq_def]
  simp

theorem scanLoopT_visited (fs : FileSystem) (n : Nat) (total : Nat)
    (u : Uri) (rest visited : List Uri) (h : u ∈ visited) :
    scanLoopT fs n false total (u :: rest) visited =
      scanLoopT fs n false total rest visited := by
  rw [scanLoopT.eq_def]
  simp [h]

theorem scanLoopT_listFail (fs : FileSystem) (n : Nat) (total : Nat)
    (u : Uri) (rest visited : List Uri) (h1 : u ∉ visited)
    (h2 : fs.readDir u = none) :
    scanLoopT fs n false total (u :: rest) visited =
      ((scanLoopT fs n false total rest (u :: visited)).1,
        u :: (scanLoopT fs n false total rest (u :: visited)).2) := by
  rw [scanLoopT.eq_def]
  simp only [Bool.false_eq_true, if_false]
  rw [if_neg h1]
  split
  · rfl
  · rename_i entries h'
    rw [h2] at h'
    simp at h'

theorem scanLoopT_listOk (fs : FileSystem) (n : Nat) (total : Nat)
    (u : Uri) (rest visited : List Uri) (es : List (String × Nat))
    (h1 : u ∉ visited) (h2 : fs.readDir u = some es) :
    scanLoopT fs n false total (u :: rest) visited =
      ((scanLoopT fs n false
          (processStatRequests fs n false (classifyEntries false u es).2
            (total, (classifyEntries false u es).1.reverse ++ rest)).1
          (processStatRequests fs n false (classifyEntries false u es).2
            (total, (classifyEntries false u es).1.reverse ++ rest)).2
          (u :: visited)).1,
        u :: (scanLoopT fs n false
          (processStatRequests fs n false (classifyEntries false u es).2
            (total, (classifyEntries false u es).1.reverse ++ rest)).1
          (processStatRequests fs n false (classifyEntries false u es).2
            (total, (classifyEntries false u es).1.reverse ++ rest)).2
          (u :: visited)).2) := by
  rw [scanLoopT.eq_def]
  simp only [Bool.false_eq_true, if_false]
  rw [if_neg h1]
  split
  · rename_i h'
    rw [h2] at h'
    simp at h'
  · rename_i entries h'
    rw [h2] at h'
    cases h'
    rfl

theorem scanLoop_cancelled (fs : FileSystem) (n : Nat) (total : Nat)
    (pending visited : List Uri) :
    scanLoop fs n true total pending visited = total := by
  unfold scanLoop
  rw [scanLoopT_cancelled]

theorem scanLoop_nil (fs : FileSystem) (n : Nat) (total : Nat)
    (visited : List Uri) :
    scanLoop fs n false total [] visited = total := by
  unfold scanLoop
  rw [scanLoopT_nil]

theorem scanLoop_visited (fs : FileSystem) (n : Nat) (total : Nat)
    (u : Uri) (rest visited : List Uri) (h : u ∈ visited) :
    scanLoop fs n false total (u :: rest) visited =
      scanLoop fs n false total rest visited := by
  unfold scanLoop
  rw [scanLoopT_visited fs n total u rest visited h]

theorem scanLoop_listFail (fs : FileSystem) (n : Nat) (total : Nat)
    (u : Uri) (rest visited : List Uri) (h1 : u ∉ visited)
    (h2 : fs.readDir u = none) :
    scanLoop fs n false total (u :: rest) visited =
      scanLoop fs n false total rest (u :: visited) := by
  unfold scanLoop
  rw [scanLoopT_listFail fs n total u rest visited h1 h2]

theorem scanLoop_listOk (fs : FileSystem) (n : Nat) (total : Nat)
    (u : Uri) (rest visited : List Uri) (es : List (String × Nat))
    (h1 : u ∉ visited) (h2 : fs.readDir u = some es) :
    scanLoop fs n false total (u :: rest) visited =
      scanLoop fs n false
        (processStatRequests fs n false (classifyEntries false u es).2
          (total, (classifyEntries false u es).1.reverse ++ rest)).1
        (processStatRequests fs n false (classifyEntries false u es).2
          (total, (classifyEntries false u es).1.reverse ++ rest)).2
        (u :: visited) := by
  unfold scanLoop
  rw [scanLoopT_listOk fs n total u rest visited es h1 h2]

theorem runChunk_false (fs : FileSystem) (chunk : List StatRequest)
    (acc : Nat × List Uri) :
    runChunk fs false chunk acc =
      chunk.foldl (fun a r => applyOnResult r (fs.statFn r.uri) a) acc := by
  induction chunk generalizing acc with
  | nil => rfl
  | cons r chunk ih =>
    unfold runChunk
    simp only [List.map_cons, List.zip_cons_cons, List.foldl_cons, if_false,
      Bool.false_eq_true]
    exact ih (applyOnResult r (fs.statFn r.uri) acc)

theorem chunksOf_flatten_aux (n : Nat) (k : Nat) :
    ∀ l : List StatRequest, l.length ≤ k → (chunksOf n l).flatten = l := by
  induction k with
  | zero =>
    intro l hl
    have : l = [] := List.length_eq_zero.mp (Nat.le_zero.mp hl)
    subst this
    simp [chunksOf]
  | succ k ih =>
    intro l hl
    match l with
    | [] => simp [chunksOf]
    | x :: xs =>
      rw [chunksOf]
      simp only [List.flatten_cons]
      rw [ih ((x :: xs).drop (max 1 n)) (by
        simp only [List.length_drop, List.length_cons]
        have : 1 ≤ max 1 n := le_max_left 1 n
        simp only [List.length_cons] at hl
        omega)]
      exact List.take_append_drop _ _

/-- The slices of `processStatRequests` partition the batch: concatenated
in order they give back the request list. -/
theorem chunksOf_flatten (n : Nat) (l : List StatRequest) :
    (chunksOf n l).flatten = l :=
  chunksOf_flatten_aux n l.length l le_rfl

theorem chunksOf_foldl_aux (fs : FileSystem) (n : Nat) (k : Nat) :
    ∀ (l : List StatRequest) (acc : Nat × List Uri), l.length ≤ k →
      (chunksOf n l).foldl (fun a c => runChunk fs false c a) acc =
        l.foldl (fun a r => applyOnResult r (fs.statFn r.uri) a) acc := by
  induction k with
  | zero =>
    intro l acc hl
    have : l = [] := List.length_eq_zero.mp (Nat.le_zero.mp hl)
    subst this
    simp [chunksOf]
  | succ k ih =>
    intro l acc hl
    match l with
    | [] => simp [chunksOf]
    | x :: xs =>
      rw [chunksOf]
      simp only [List.foldl_cons]
      rw [runChunk_false, ih ((x :: xs).drop (max 1 n)) _ (by
        simp only [List.length_drop, List.length_cons]
        have : 1 ≤ max 1 n := le_max_left 1 n
        simp only [List.length_cons] at hl
        omega)]
      rw [← List.foldl_append]
      rw [List.take_append_drop]
      simp

/-- With a never-set token, `processStatRequests` applies every request's
`onResult` to its own stat outcome, in batch order; the chunking is only a
concurrency throttle and does not change the outcome. -/
theorem processStatRequests_false (fs : FileSystem) (n : Nat)
    (requests : List StatRequest) (acc : Nat × List Uri) :
    processStatRequests fs n false requests acc =
      requests.foldl (fun a r => applyOnResult r (fs.statFn r.uri) a) acc := by
  unfold processStatRequests
  match requests with
  | [] => rfl
  | x :: xs =>
    simp only [List.isEmpty_cons, Bool.false_or, if_false, Bool.false_eq_true]
    exact chunksOf_foldl_aux fs n (x :: xs).length (x :: xs) acc le_rfl

theorem chunksOf_chunk_le_aux (n : Nat) (k : Nat) :
    ∀ l : List StatRequest, l.length ≤ k →
      ∀ c ∈ chunksOf n l, c.length ≤ max 1 n := by
  induction k with
  | zero =>
    intro l hl
    have : l = [] := List.length_eq_zero.mp (Nat.le_zero.mp hl)
    subst this
    simp [chunksOf]
  | succ k ih =>
    intro l hl
    match l with
    | [] => simp [chunksOf]
    | x :: xs =>
      rw [chunksOf]
      intro c hc
      rcases List.mem_cons.mp hc with hc | hc
      · subst hc
        rw [List.length_take]
        exact min_le_left _ _
      · exact ih ((x :: xs).drop (max 1 n)) (by
          simp only [List.length_drop, List.length_cons]
          have : 1 ≤ max 1 n := le_max_left 1 n
          simp only [List.length_cons] at hl
          omega) c hc

theorem chunksOf_chunk_le (n : Nat) (l : List StatRequest) :
    ∀ c ∈ chunksOf n l, c.length ≤ max 1 n :=
  chunksOf_chunk_le_aux n l.length l le_rfl

theorem foldl_file_reqs (fs : FileSystem) :
    ∀ (reqs : List StatRequest), (∀ r ∈ reqs, r.kind = ReqKind.file) →
      ∀ (T : Nat) (P : List Uri),
        reqs.foldl (fun a r => applyOnResult r (fs.statFn r.uri) a) (T, P) =
          (T + (reqs.map (fun r => fileStatContribution fs r.uri)).sum, P) := by
  intro reqs
  induction reqs with
  | nil =>
    intro _ T P
    simp
  | cons r reqs ih =>
    intro h T P
    have hr : r.kind = ReqKind.file := h r (List.mem_cons_self r reqs)
    have hrest : ∀ x ∈ reqs, x.kind = ReqKind.file :=
      fun x hx => h x (List.mem_cons_of_mem _ hx)
    have happ : applyOnResult r (fs.statFn r.uri) (T, P) =
        (T + fileStatContribution fs r.uri, P) := by
      unfold applyOnResult fileStatContribution
      cases hst : fs.statFn r.uri with
      | none => simp
      | some ts =>
        obtain ⟨t, s⟩ := ts
        rw [hr]
        by_cases hb : t &&& FileType.File ≠ 0 <;> simp [hb]
    simp only [List.foldl_cons, List.map_cons, List.sum_cons]
    rw [happ, ih hrest]
    rw [Nat.add_assoc]

/-- C6: a failing stat resolves to an absent result for its own path only.
In a batch of file-kind requests the total grows by exactly the sum of the
per-path contributions, where a failing path contributes 0 and every other
path contributes its full reported size; the batch always completes and
the pending stack is untouched, so no error reaches the caller. -/
theorem stat_failure_isolated (fs : FileSystem) (n : Nat)
    (reqs : List StatRequest) (T : Nat) (P : List Uri)
    (h : ∀ r ∈ reqs, r.kind = ReqKind.file) :
    processStatRequests fs n false reqs (T, P) =
      (T + (reqs.map (fun r => fileStatContribution fs r.uri)).sum, P) := by
  rw [processStatRequests_false]
  exact foldl_file_reqs fs reqs h T P

/-- Witness for C6: the mid-scan-deletion scenario, `uriB`'s stat failing
between two successful sibling stats. -/
theorem stat_failure_isolated_witness :
    processStatRequests fsC6 32 false reqsC6 (0, []) =
      (0 + (reqsC6.map (fun r => fileStatContribution fsC6 r.uri)).sum, []) :=
  stat_failure_isolated fsC6 32 reqsC6 0 [] (by decide)

/-- C7: a failing directory listing is local.  Popping a location whose
listing fails only marks it visited and moves on to the rest of the
frontier with the total unchanged, and a root whose own listing fails
(inaccessible, or not a directory) yields size 0 with no error. -/
theorem listing_failure_local (fs : FileSystem) (n : Nat) :
    (∀ (total : Nat) (u : Uri) (rest visited : List Uri),
      u ∉ visited → fs.readDir u = none →
      scanLoop fs n false total (u :: rest) visited =
        scanLoop fs n false total rest (u :: visited)) ∧
    (∀ root : Uri, fs.readDir root = none →
      calculateFolderSize fs n root false = 0) := by
  constructor
  · intro total u rest visited h1 h2
    exact scanLoop_listFail fs n total u rest visited h1 h2
  · intro root h
    unfold calculateFolderSize
    rw [scanLoop_listFail fs n 0 root [] [] (by simp) h, scanLoop_nil]

/-- Witness for C7 on the all-failing filesystem. -/
theorem listing_failure_local_witness :
    scanLoop emptyFs 32 false 0 [uriA] [] = scanLoop emptyFs 32 false 0 [] [uriA] ∧
    calculateFolderSize emptyFs 32 uriA false = 0 :=
  ⟨(listing_failure_local emptyFs 32).1 0 uriA [] [] (by simp) rfl,
    (listing_failure_local emptyFs 32).2 uriA rfl⟩

/-- C8: `processStatRequests` splits its batch into consecutive slices
(concatenating the slices gives back the batch, in order) of size at most
the effective concurrency, the constructor clamps the configured value to
`max 1 _` with default `DEFAULT_CONCURRENCY = 32`, and the slices are
folded strictly one after another, so at most the effective limit of stat
operations is ever in flight. -/
theorem stat_batches_bounded :
    (∀ (n : Nat) (l : List StatRequest), (chunksOf n l).flatten = l) ∧
    (∀ (n : Nat) (l c : List StatRequest),
      c ∈ chunksOf n l → c.length ≤ max 1 n) ∧
    (∀ statConcurrencyOption : Option Nat,
      (WorkspaceSizeCalculator.ofOptions statConcurrencyOption).statConcurrency =
        max 1 (statConcurrencyOption.getD DEFAULT_CONCURRENCY)) ∧
    DEFAULT_CONCURRENCY = 32 ∧
    (WorkspaceSizeCalculator.ofOptions none).statConcurrency = 32 := by
  refine ⟨fun n l => chunksOf_flatten n l,
    fun n l c hc => chunksOf_chunk_le n l c hc,
    fun o => rfl, rfl, rfl⟩

/-- Witness for C8: a batch of three requests under limit 1 is sliced into
singleton chunks. -/
theorem stat_batches_bounded_witness :
    (chunksOf 1 [reqA, reqB, reqC]).flatten = [reqA, reqB, reqC] ∧
    [reqA].length ≤ max 1 1 :=
  ⟨stat_batches_bounded.1 1 [reqA, reqB, reqC],
    stat_batches_bounded.2.1 1 [reqA, reqB, reqC] [reqA] (by
      simp [chunksOf])⟩

/-- C9: if the cancellation token is already set when `calculate` starts,
the call returns one zero-sized result per folder, in order, on every
filesystem whatsoever — in particular no listing or stat outcome can
influence the result, because none is consulted. -/
theorem calculate_cancelled_token (c : WorkspaceSizeCalculator)
    (fs : FileSystem) (folders : List Uri) :
    c.calculate fs folders true = folders.map (fun f => (f, 0)) := by
  unfold WorkspaceSizeCalculator.calculate calculateFolderSize
  simp only [scanLoop_cancelled]

/-- C3 counterexample: the code renders 1024 bytes as `"1.0 KB"` (one
fractional digit, since the scaled value 1 is below 100 and the unit is
not bytes), not `"1 KB"` as claimed. -/
theorem formatBytes_1024_has_fraction_digit :
    formatBytes (JSNumber.finite 1024) = "1.0 KB" ∧ "1.0 KB" ≠ "1 KB" :=
  ⟨formatBytes_val_1024, by decide⟩

/-- C3 (amended): the sampled values render as `"0 B"`, `"1023 B"`,
`"1.0 KB"`, `"1.5 KB"` and `"1.0 MB"` (values below 100 in a non-byte
unit carry one fractional digit), and negative or non-finite input yields
`"0 B"`. -/
theorem formatBytes_concrete_values :
    formatBytes (JSNumber.finite 0) = "0 B" ∧
    formatBytes (JSNumber.finite 1023) = "1023 B" ∧
    formatBytes (JSNumber.finite 1024) = "1.0 KB" ∧
    formatBytes (JSNumber.finite 1536) = "1.5 KB" ∧
    formatBytes (JSNumber.finite 1048576) = "1.0 MB" ∧
    formatBytes JSNumber.nan = "0 B" ∧
    formatBytes JSNumber.posInf = "0 B" ∧
    formatBytes JSNumber.negInf = "0 B" ∧
    ∀ q : ℚ, q < 0 → formatBytes (JSNumber.finite q) = "0 B" :=
  ⟨formatBytes_val_0, formatBytes_val_1023, formatBytes_val_1024,
    formatBytes_val_1536, formatBytes_val_1048576, rfl, rfl, rfl,
    fun q hq => formatBytes_neg q hq⟩

/-- Witness for the amended C3 at the negative input `-1`. -/
theorem formatBytes_concrete_values_witness :
    formatBytes (JSNumber.finite (-1)) = "0 B" :=
  formatBytes_concrete_values.2.2.2.2.2.2.2.2 (-1) (by decide)

/-- C4: `formatBytes` is total and pure by construction; non-finite or
negative input renders as the zero string; otherwise the value is scaled
by whole factors of 1024 into the last of the six units B…PB in which it
is either below 1024 or which is PB itself, and it is rendered through
`toFixed0` (an integer, no fractional digit) exactly when the scaled value
is at least 100 or the unit is bytes, and through `toFixed1` (exactly one
digit after the decimal point) otherwise. -/
theorem formatBytes_total_rendering :
    (formatBytes JSNumber.nan = "0 B" ∧ formatBytes JSNumber.posInf = "0 B" ∧
      formatBytes JSNumber.negInf = "0 B" ∧
      ∀ q : ℚ, q < 0 → formatBytes (JSNumber.finite q) = "0 B") ∧
    (∀ q : ℚ, 0 ≤ q → ∃ j, j ≤ 5 ∧
      (q / 1024 ^ j < 1024 ∨ j = 5) ∧
      (∀ m, m < j → 1024 ≤ q / 1024 ^ m) ∧
      formatBytes (JSNumber.finite q) =
        (if 100 ≤ q / 1024 ^ j ∨ j = 0 then toFixed0 (q / 1024 ^ j)
          else toFixed1 (q / 1024 ^ j)) ++ " " ++ unitsList.getD j "") ∧
    (∀ v : ℚ, toFixed0 v = toString (Rat.floor (v + 1 / 2)) ∧
      ∃ d : ℤ, 0 ≤ d ∧ d < 10 ∧
        toFixed1 v = toString (Rat.floor (v * 10 + 1 / 2) / 10) ++ "." ++
          toString d) := by
  refine ⟨⟨rfl, rfl, rfl, fun q hq => formatBytes_neg q hq⟩, ?_, ?_⟩
  · intro q hq
    obtain ⟨k, hk5, heq, hstop, hlow⟩ := formatLoopAux_invariant 5 q 0
    refine ⟨k, hk5, ?_, hlow, ?_⟩
    · rcases hstop with h | h
      · exact Or.inl h
      · exact Or.inr h
    · rw [formatBytes_finite q (not_lt.mpr hq), heq]
      simp only [Nat.zero_add]
  · intro v
    refine ⟨rfl, Rat.floor (v * 10 + 1 / 2) % 10, ?_, ?_, rfl⟩
    · exact Int.emod_nonneg _ (by norm_num)
    · exact Int.emod_lt_of_pos _ (by norm_num)

/-- Witness for C4 at the inputs `-2` and `1536`. -/
theorem formatBytes_total_rendering_witness :
    formatBytes (JSNumber.finite (-2)) = "0 B" ∧
    (∃ j, j ≤ 5 ∧ ((1536 : ℚ) / 1024 ^ j < 1024 ∨ j = 5) ∧
      (∀ m, m < j → 1024 ≤ (1536 : ℚ) / 1024 ^ m) ∧
      formatBytes (JSNumber.finite 1536) =
        (if 100 ≤ (1536 : ℚ) / 1024 ^ j ∨ j = 0 then toFixed0 ((1536 : ℚ) / 1024 ^ j)
          else toFixed1 ((1536 : ℚ) / 1024 ^ j)) ++ " " ++ unitsList.getD j "") :=
  ⟨formatBytes_total_rendering.1.2.2.2 (-2) (by decide),
    formatBytes_total_rendering.2.1 1536 (by decide)⟩

theorem scan_trace_aux (fs : FileSystem) (n : Nat) :
    ∀ (R L : Nat) (pending visited : List Uri) (total : Nat),
      remainingDirs fs visited ≤ R → pending.length ≤ L →
      (scanLoopT fs n false total pending visited).2.Nodup ∧
      (∀ u ∈ (scanLoopT fs n false total pending visited).2, u ∉ visited) := by
  intro R
  induction R with
  | zero =>
    intro L
    induction L with
    | zero =>
      intro pending visited total hR hL
      have hp : pending = [] := List.length_eq_zero.mp (Nat.le_zero.mp hL)
      subst hp
      rw [scanLoopT_nil]
      exact ⟨List.nodup_nil, by simp⟩
    | succ L ihL =>
      intro pending visited total hR hL
      match pending with
      | [] =>
        rw [scanLoopT_nil]
        exact ⟨List.nodup_nil, by simp⟩
      | u :: rest =>
        by_cases hv : u ∈ visited
        · rw [scanLoopT_visited fs n total u rest visited hv]
          exact ihL rest visited total hR
            (by simp only [List.length_cons] at hL; omega)
        · cases hread : fs.readDir u with
          | none =>
            rw [scanLoopT_listFail fs n total u rest visited hv hread]
            have hR' : remainingDirs fs (u :: visited) ≤ 0 :=
              le_trans (remainingDirs_cons_le fs u visited) hR
            obtain ⟨hnd, hfr⟩ := ihL rest (u :: visited) total hR'
              (by simp only [List.length_cons] at hL; omega)
            constructor
            · exact List.nodup_cons.mpr
                ⟨fun hc => (hfr u hc) (List.mem_cons_self u visited), hnd⟩
            · intro w hw
              rcases List.mem_cons.mp hw with h | h
              · subst h; exact hv
              · exact fun hc => hfr w h (List.mem_cons_of_mem _ hc)
          | some entries =>
            exfalso
            have hmem := fs.readDir_listable u entries hread
            have := remainingDirs_cons_lt fs u visited hmem hv
            omega
  | succ R ihR =>
    intro L
    induction L with
    | zero =>
      intro pending visited total hR hL
      have hp : pending = [] := List.length_eq_zero.mp (Nat.le_zero.mp hL)
      subst hp
      rw [scanLoopT_nil]
      exact ⟨List.nodup_nil, by simp⟩
    | succ L ihL =>
      intro pending visited total hR hL
      match pending with
      | [] =>
        rw [scanLoopT_nil]
        exact ⟨List.nodup_nil, by simp⟩
      | u :: rest =>
        by_cases hv : u ∈ visited
        · rw [scanLoopT_visited fs n total u rest visited hv]
          exact ihL rest visited total hR
            (by simp only [List.length_cons] at hL; omega)
        · cases hread : fs.readDir u with
          | none =>
            rw [scanLoopT_listFail fs n total u rest visited hv hread]
            have hR' : remainingDirs fs (u :: visited) ≤ R + 1 :=
              le_trans (remainingDirs_cons_le fs u visited) hR
            obtain ⟨hnd, hfr⟩ := ihL rest (u :: visited) total hR'
              (by simp only [List.length_cons] at hL; omega)
            constructor
            · exact List.nodup_cons.mpr
                ⟨fun hc => (hfr u hc) (List.mem_cons_self u visited), hnd⟩
            · intro w hw
              rcases List.mem_cons.mp hw with h | h
              · subst h; exact hv
              · exact fun hc => hfr w h (List.mem_cons_of_mem _ hc)
          | some entries =>
            rw [scanLoopT_listOk fs n total u rest visited entries hv hread]
            have hlt := remainingDirs_cons_lt fs u visited
              (fs.readDir_listable u entries hread) hv
            have hR' : remainingDirs fs (u :: visited) ≤ R := by omega
            obtain ⟨hnd, hfr⟩ := ihR
              (processStatRequests fs n false (classifyEntries false u entries).2
                (total, (classifyEntries false u entries).1.reverse ++ rest)).2.length
              (processStatRequests fs n false (classifyEntries false u entries).2
                (total, (classifyEntries false u entries).1.reverse ++ rest)).2
              (u :: visited)
              (processStatRequests fs n false (classifyEntries false u entries).2
                (total, (classifyEntries false u entries).1.reverse ++ rest)).1
              hR' le_rfl
            constructor
            · exact List.nodup_cons.mpr
                ⟨fun hc => (hfr u hc) (List.mem_cons_self u visited), hnd⟩
            · intro w hw
              rcases List.mem_cons.mp hw with h | h
              · subst h; exact hv
              · exact fun hc => hfr w h (List.mem_cons_of_mem _ hc)

/-- C5: within one root's scan every directory location reaches the
listing call at most once — the ghost log of listed locations is without
duplicates and disjoint from the initial visited set, for every
filesystem, frontier and visited set.  A location discovered twice is
skipped the second time, so its contents are counted at most once. -/
theorem scan_lists_each_directory_once (fs : FileSystem) (n : Nat)
    (token : Bool) (total : Nat) (pending visited : List Uri) :
    (scanLoopT fs n token total pending visited).2.Nodup ∧
    ∀ u ∈ (scanLoopT fs n token total pending visited).2, u ∉ visited := by
  cases token with
  | false =>
    exact scan_trace_aux fs n (remainingDirs fs visited) pending.length
      pending visited total le_rfl le_rfl
  | true =>
    rw [scanLoopT_cancelled]
    exact ⟨List.nodup_nil, by simp⟩

/-- Witness for C5 on a one-element frontier over the all-failing
filesystem, whose trace is exactly `[uriA]`. -/
theorem scan_lists_each_directory_once_witness :
    (scanLoopT emptyFs 32 false 0 [uriA] []).2.Nodup ∧
    uriA ∉ ([] : List Uri) := by
  have htr : (scanLoopT emptyFs 32 false 0 [uriA] []).2 = [uriA] := by
    rw [scanLoopT_listFail emptyFs 32 0 uriA [] [] (by simp) rfl]
    simp [scanLoopT_nil]
  exact ⟨(scan_lists_each_directory_once emptyFs 32 false 0 [uriA] []).1,
    (scan_lists_each_directory_once emptyFs 32 false 0 [uriA] []).2 uriA
      (by rw [htr]; simp)⟩

theorem classifyEntries_cons (u : Uri) (name : String) (t : Nat)
    (rest : List (String × Nat)) :
    classifyEntries false u ((name, t) :: rest) =
      (if t &&& FileType.Directory ≠ 0 then
        (Uri.joinPath u name :: (classifyEntries false u rest).1,
          (classifyEntries false u rest).2)
      else if t &&& FileType.File ≠ 0 then
        ((classifyEntries false u rest).1,
          ⟨Uri.joinPath u name, ReqKind.file⟩ :: (classifyEntries false u rest).2)
      else if t &&& FileType.SymbolicLink ≠ 0 then
        ((classifyEntries false u rest).1, (classifyEntries false u rest).2)
      else
        ((classifyEntries false u rest).1,
          ⟨Uri.joinPath u name, ReqKind.unknown⟩ ::
            (classifyEntries false u rest).2)) := rfl

/-- C10: entry classification tests the Directory bit first, then the
File bit, then the SymbolicLink bit.  Consequently an entry whose tag
combines SymbolicLink with Directory (66) is pushed onto the frontier and
traversed, and one combining SymbolicLink with File (65) is statted and
its size added: on a root listing such a `d` (66, containing a plain file
of size 7) and such an `f` (65, statting at size 5) the scan totals 12. -/
theorem classification_bit_order :
    (∀ (u : Uri) (name : String) (t : Nat) (rest : List (String × Nat)),
      t &&& FileType.Directory ≠ 0 →
      classifyEntries false u ((name, t) :: rest) =
        (Uri.joinPath u name :: (classifyEntries false u rest).1,
          (classifyEntries false u rest).2)) ∧
    (∀ (u : Uri) (name : String) (t : Nat) (rest : List (String × Nat)),
      t &&& FileType.Directory = 0 → t &&& FileType.File ≠ 0 →
      classifyEntries false u ((name, t) :: rest) =
        ((classifyEntries false u rest).1,
          ⟨Uri.joinPath u name, ReqKind.file⟩ :: (classifyEntries false u rest).2)) ∧
    ((FileType.SymbolicLink ||| FileType.Directory) &&& FileType.Directory ≠ 0) ∧
    ((FileType.SymbolicLink ||| FileType.File) &&& FileType.Directory = 0 ∧
      (FileType.SymbolicLink ||| FileType.File) &&& FileType.File ≠ 0) ∧
    calculateFolderSize fsC10 1 uriRoot false = 12 := by
  refine ⟨?_, ?_, by decide, ⟨by decide, by decide⟩, ?_⟩
  · intro u name t rest h
    rw [classifyEntries_cons, if_pos h]
  · intro u name t rest h1 h2
    rw [classifyEntries_cons, if_neg (by simpa using h1), if_pos h2]
  · unfold calculateFolderSize
    rw [scanLoop_listOk fsC10 1 0 uriRoot [] []
      [("d", FileType.SymbolicLink ||| FileType.Directory),
        ("f", FileType.SymbolicLink ||| FileType.File)] (by simp) rfl]
    have hclass1 : classifyEntries false uriRoot
        [("d", FileType.SymbolicLink ||| FileType.Directory),
          ("f", FileType.SymbolicLink ||| FileType.File)] =
        ([uriD], [⟨uriF, ReqKind.file⟩]) := by decide
    rw [hclass1]
    have hstat1 : processStatRequests fsC10 1 false [⟨uriF, ReqKind.file⟩]
        (0, [uriD].reverse ++ []) = (5, [uriD]) := by
      rw [processStatRequests_false]
      decide
    rw [hstat1]
    rw [scanLoop_listOk fsC10 1 5 uriD [] [uriRoot] [("g", FileType.File)]
      (by decide) rfl]
    have hclass2 : classifyEntries false uriD [("g", FileType.File)] =
        ([], [⟨uriDG, ReqKind.file⟩]) := by decide
    rw [hclass2]
    have hstat2 : processStatRequests fsC10 1 false [⟨uriDG, ReqKind.file⟩]
        (5, [].reverse ++ []) = (12, []) := by
      rw [processStatRequests_false]
      decide
    rw [hstat2]
    rw [scanLoop_nil]

/-- Witness for C10 at the two combined tags. -/
theorem classification_bit_order_witness :
    classifyEntries false uriRoot
        [("d", FileType.SymbolicLink ||| FileType.Directory)] =
      (Uri.joinPath uriRoot "d" :: (classifyEntries false uriRoot []).1,
        (classifyEntries false uriRoot []).2) ∧
    classifyEntries false uriRoot
        [("f", FileType.SymbolicLink ||| FileType.File)] =
      ((classifyEntries false uriRoot []).1,
        ⟨Uri.joinPath uriRoot "f", ReqKind.file⟩ ::
          (classifyEntries false uriRoot []).2) :=
  ⟨classification_bit_order.1 uriRoot "d"
      (FileType.SymbolicLink ||| FileType.Directory) [] (by decide),
    classification_bit_order.2.1 uriRoot "f"
      (FileType.SymbolicLink ||| FileType.File) [] (by decide) (by decide)⟩

theorem extendUri_nil (u : Uri) : extendUri u [] = u := by
  unfold extendUri
  rw [List.append_nil]

theorem extendUri_join (u : Uri) (n : String) (p : List String) :
    extendUri (Uri.joinPath u n) p = extendUri u (n :: p) := by
  unfold extendUri Uri.joinPath
  simp

theorem extendUri_inj (u : Uri) (p q : List String)
    (h : extendUri u p = extendUri u q) : p = q := by
  unfold extendUri at h
  have h2 := congrArg Uri.segments h
  simpa using h2

theorem dirUris_self (u : Uri) (es : FsForest) : u ∈ dirUris u es := by
  unfold dirUris
  have h0 : ([] : List String) ∈ treeDirPaths (FsTree.dir es) := by
    unfold treeDirPaths
    exact List.mem_cons_self _ _
  exact List.mem_map.mpr ⟨[], h0, extendUri_nil u⟩

theorem not_self_mem_child (u : Uri) (n : String) (es0 : FsForest) :
    u ∉ dirUris (Uri.joinPath u n) es0 := by
  intro hmem
  unfold dirUris at hmem
  obtain ⟨p, hp, hw⟩ := List.mem_map.mp hmem
  rw [extendUri_join] at hw
  have h2 := congrArg (fun x : Uri => x.segments.length) hw
  simp [extendUri] at h2

theorem mem_entries_dirPaths (n : String) (t : FsTree) :
    (es : FsForest) → (n, t) ∈ forestEntries es →
      ∀ q ∈ treeDirPaths t, n :: q ∈ forestDirPaths es
  | FsForest.nil, h => by simp [forestEntries] at h
  | FsForest.cons name t0 rest, h => by
    intro q hq
    unfold forestEntries at h
    rcases List.mem_cons.mp h with h | h
    · cases h
      unfold forestDirPaths
      exact List.mem_append_left _ (List.mem_map_of_mem _ hq)
    · unfold forestDirPaths
      exact List.mem_append_right _ (mem_entries_dirPaths n t rest h q hq)

theorem dirUris_child_subset (u : Uri) (n : String) (es0 es : FsForest)
    (hmem : (n, FsTree.dir es0) ∈ forestEntries es) :
    ∀ w ∈ dirUris (Uri.joinPath u n) es0, w ∈ dirUris u es := by
  intro w hw
  unfold dirUris at hw ⊢
  obtain ⟨p, hp, hweq⟩ := List.mem_map.mp hw
  rw [← hweq, extendUri_join]
  apply List.mem_map_of_mem
  unfold treeDirPaths
  exact List.mem_cons_of_mem _
    (mem_entries_dirPaths n (FsTree.dir es0) es hmem p hp)

theorem dirUris_child_disjoint_of_ne (u : Uri) (n1 n2 : String)
    (es1 es2 : FsForest) (hne : n1 ≠ n2) :
    ∀ w, w ∈ dirUris (Uri.joinPath u n1) es1 →
      w ∉ dirUris (Uri.joinPath u n2) es2 := by
  intro w h1 h2
  unfold dirUris at h1 h2
  obtain ⟨p1, hp1, hw1⟩ := List.mem_map.mp h1
  obtain ⟨p2, hp2, hw2⟩ := List.mem_map.mp h2
  rw [extendUri_join] at hw1 hw2
  have heq : extendUri u (n1 :: p1) = extendUri u (n2 :: p2) := hw1.trans hw2.symm
  have hcons := extendUri_inj u _ _ heq
  injection hcons with hn _
  exact hne hn

theorem wfForest_cons_parts {name : String} {t : FsTree} {rest : FsForest}
    (h : wfForest (FsForest.cons name t rest) = true) :
    validName name = true ∧ hasName rest name = false ∧
      wfTree t = true ∧ wfForest rest = true := by
  unfold wfForest at h
  simp only [Bool.and_eq_true, Bool.not_eq_true'] at h
  exact ⟨h.1.1.1, h.1.1.2, h.1.2, h.2⟩

theorem mem_entries_hasName (n : String) (t : FsTree) :
    (es : FsForest) → (n, t) ∈ forestEntries es → hasName es n = true
  | FsForest.nil, h => by simp [forestEntries] at h
  | FsForest.cons name t0 rest, h => by
    unfold forestEntries at h
    unfold hasName
    rcases List.mem_cons.mp h with h | h
    · cases h
      simp
    · rw [mem_entries_hasName n t rest h]
      simp

theorem wf_findEntry (n : String) (t : FsTree) :
    (es : FsForest) → wfForest es = true → (n, t) ∈ forestEntries es →
      findEntry es n = some t
  | FsForest.nil, _, h => by simp [forestEntries] at h
  | FsForest.cons name t0 rest, hwf, h => by
    obtain ⟨hv, hh, hwt, hwr⟩ := wfForest_cons_parts hwf
    unfold forestEntries at h
    unfold findEntry
    rcases List.mem_cons.mp h with h | h
    · cases h
      rw [if_pos rfl]
    · have hne : name ≠ n := by
        intro he
        rw [he] at hh
        rw [mem_entries_hasName n t rest h] at hh
        cases hh
      rw [if_neg hne]
      exact wf_findEntry n t rest hwr h

theorem wf_entry_wfTree (n : String) (t : FsTree) :
    (es : FsForest) → wfForest es = true → (n, t) ∈ forestEntries es →
      wfTree t = true
  | FsForest.nil, _, h => by simp [forestEntries] at h
  | FsForest.cons name t0 rest, hwf, h => by
    obtain ⟨hv, hh, hwt, hwr⟩ := wfForest_cons_parts hwf
    unfold forestEntries at h
    rcases List.mem_cons.mp h with h | h
    · cases h
      exact hwt
    · exact wf_entry_wfTree n t rest hwr h

theorem subtreeAt_append (q : List String) :
    ∀ (p : List String) (t : FsTree),
      subtreeAt t (p ++ q) =
        match subtreeAt t p with
        | some t' => subtreeAt t' q
        | none => none := by
  intro p
  induction p with
  | nil =>
    intro t
    simp [subtreeAt]
  | cons a p' ih =>
    intro t
    cases t with
    | file s => simp [subtreeAt]
    | link => simp [subtreeAt]
    | dir es =>
      rw [List.cons_append]
      cases hf : findEntry es a with
      | none =>
        rw [show subtreeAt (FsTree.dir es) (a :: (p' ++ q)) =
          (match findEntry es a with
            | some t0 => subtreeAt t0 (p' ++ q)
            | none => none) from rfl, hf]
        rw [show subtreeAt (FsTree.dir es) (a :: p') =
          (match findEntry es a with
            | some t0 => subtreeAt t0 p'
            | none => none) from rfl, hf]
      | some t0 =>
        rw [show subtreeAt (FsTree.dir es) (a :: (p' ++ q)) =
          (match findEntry es a with
            | some t1 => subtreeAt t1 (p' ++ q)
            | none => none) from rfl, hf]
        rw [show subtreeAt (FsTree.dir es) (a :: p') =
          (match findEntry es a with
            | some t1 => subtreeAt t1 p'
            | none => none) from rfl, hf]
        exact ih t0

theorem forestLookup_child (roots : List (String × FsForest)) (u : Uri)
    (es : FsForest) (n : String) (t : FsTree)
    (hu : forestLookup roots u = some (FsTree.dir es))
    (hf : findEntry es n = some t) :
    forestLookup roots (Uri.joinPath u n) = some t := by
  unfold forestLookup at hu ⊢
  have hroot : (Uri.joinPath u n).root = u.root := rfl
  rw [hroot]
  cases hr : roots.find? (fun r => r.1 == u.root) with
  | none =>
    rw [hr] at hu
    exact Option.noConfusion hu
  | some r =>
    rw [hr] at hu
    have hu' : subtreeAt (FsTree.dir r.2) u.segments = some (FsTree.dir es) := hu
    show subtreeAt (FsTree.dir r.2) (u.segments ++ [n]) = some t
    rw [subtreeAt_append [n] u.segments (FsTree.dir r.2), hu']
    show subtreeAt (FsTree.dir es) [n] = some t
    rw [show subtreeAt (FsTree.dir es) [n] =
      (match findEntry es n with
        | some t0 => subtreeAt t0 []
        | none => none) from rfl, hf]
    simp [subtreeAt]

theorem classify_listing (u : Uri) :
    ∀ l : List (String × FsTree),
      classifyEntries false u (l.map (fun e => (e.1, typeOf e.2))) =
        ((dirChildSpecs u l).map Prod.fst, fileReqsOf u l) := by
  intro l
  induction l with
  | nil => rfl
  | cons e l ih =>
    obtain ⟨n, t⟩ := e
    cases t with
    | file s =>
      rw [List.map_cons]
      rw [show ((n, FsTree.file s).1, typeOf (n, FsTree.file s).2)
        = (n, FileType.File) from rfl]
      rw [classifyEntries_cons, if_neg (by decide), if_pos (by decide), ih]
      rfl
    | link =>
      rw [List.map_cons]
      rw [show ((n, FsTree.link).1, typeOf (n, FsTree.link).2)
        = (n, FileType.SymbolicLink) from rfl]
      rw [classifyEntries_cons, if_neg (by decide), if_neg (by decide),
        if_pos (by decide), ih]
      rfl
    | dir es0 =>
      rw [List.map_cons]
      rw [show ((n, FsTree.dir es0).1, typeOf (n, FsTree.dir es0).2)
        = (n, FileType.Directory) from rfl]
      rw [classifyEntries_cons, if_pos (by decide), ih]
      rfl

theorem foldl_fileReqs_forest (roots : List (String × FsForest)) (u : Uri) :
    ∀ l : List (String × FsTree),
      (∀ e ∈ l, forestLookup roots (Uri.joinPath u e.1) = some e.2) →
      ∀ (T : Nat) (P : List Uri),
        (fileReqsOf u l).foldl
          (fun a r => applyOnResult r ((fsOfForest roots).statFn r.uri) a)
          (T, P) = (T + fileSizesOf l, P) := by
  intro l
  induction l with
  | nil =>
    intro _ T P
    simp [fileReqsOf, fileSizesOf]
  | cons e l ih =>
    intro h T P
    obtain ⟨n, t⟩ := e
    have he : forestLookup roots (Uri.joinPath u n) = some t :=
      h (n, t) (List.mem_cons_self _ _)
    have hrest : ∀ e ∈ l, forestLookup roots (Uri.joinPath u e.1) = some e.2 :=
      fun e hx => h e (List.mem_cons_of_mem _ hx)
    cases t with
    | file s =>
      rw [show fileReqsOf u ((n, FsTree.file s) :: l) =
        ⟨Uri.joinPath u n, ReqKind.file⟩ :: fileReqsOf u l from rfl]
      rw [List.foldl_cons]
      have hstat : (fsOfForest roots).statFn (Uri.joinPath u n) =
          some (FileType.File, s) := by
        show forestStat roots (Uri.joinPath u n) = _
        unfold forestStat
        rw [he]
        rfl
      have hstep : applyOnResult ⟨Uri.joinPath u n, ReqKind.file⟩
          ((fsOfForest roots).statFn
            (⟨Uri.joinPath u n, ReqKind.file⟩ : StatRequest).uri) (T, P) =
          (T + s, P) := by
        rw [show (⟨Uri.joinPath u n, ReqKind.file⟩ : StatRequest).uri =
          Uri.joinPath u n from rfl, hstat]
        rfl
      rw [hstep, ih hrest]
      rw [show fileSizesOf ((n, FsTree.file s) :: l) =
        s + fileSizesOf l from rfl]
      rw [Nat.add_assoc]
    | link =>
      rw [show fileReqsOf u ((n, FsTree.link) :: l) = fileReqsOf u l from rfl]
      rw [ih hrest]
      rfl
    | dir es0 =>
      rw [show fileReqsOf u ((n, FsTree.dir es0) :: l) = fileReqsOf u l from rfl]
      rw [ih hrest]
      rfl

theorem forestSize_decomp (u : Uri) :
    (es : FsForest) → forestSize es =
      fileSizesOf (forestEntries es) +
        ((dirChildSpecs u (forestEntries es)).map (fun p => forestSize p.2)).sum
  | FsForest.nil => by simp [forestSize, forestEntries, fileSizesOf, dirChildSpecs]
  | FsForest.cons n t rest => by
    have ih := forestSize_decomp u rest
    cases t with
    | file s =>
      show treeSize (FsTree.file s) + forestSize rest = _
      rw [show treeSize (FsTree.file s) = s from rfl]
      rw [show forestEntries (FsForest.cons n (FsTree.file s) rest) =
        (n, FsTree.file s) :: forestEntries rest from rfl]
      rw [show fileSizesOf ((n, FsTree.file s) :: forestEntries rest) =
        s + fileSizesOf (forestEntries rest) from rfl]
      rw [show dirChildSpecs u ((n, FsTree.file s) :: forestEntries rest) =
        dirChildSpecs u (forestEntries rest) from rfl]
      omega
    | link =>
      show treeSize FsTree.link + forestSize rest = _
      rw [show treeSize FsTree.link = 0 from rfl]
      rw [show forestEntries (FsForest.cons n FsTree.link rest) =
        (n, FsTree.link) :: forestEntries rest from rfl]
      rw [show fileSizesOf ((n, FsTree.link) :: forestEntries rest) =
        fileSizesOf (forestEntries rest) from rfl]
      rw [show dirChildSpecs u ((n, FsTree.link) :: forestEntries rest) =
        dirChildSpecs u (forestEntries rest) from rfl]
      omega
    | dir es0 =>
      show treeSize (FsTree.dir es0) + forestSize rest = _
      rw [show treeSize (FsTree.dir es0) = forestSize es0 from rfl]
      rw [show forestEntries (FsForest.cons n (FsTree.dir es0) rest) =
        (n, FsTree.dir es0) :: forestEntries rest from rfl]
      rw [show fileSizesOf ((n, FsTree.dir es0) :: forestEntries rest) =
        fileSizesOf (forestEntries rest) from rfl]
      rw [show dirChildSpecs u ((n, FsTree.dir es0) :: forestEntries rest) =
        (Uri.joinPath u n, es0) :: dirChildSpecs u (forestEntries rest) from rfl]
      rw [List.map_cons, List.sum_cons]
      simp only []
      omega

theorem mem_dirChildSpecs (u : Uri) :
    ∀ (l : List (String × FsTree)) (p : Uri × FsForest),
      p ∈ dirChildSpecs u l →
      ∃ n es0, p = (Uri.joinPath u n, es0) ∧ (n, FsTree.dir es0) ∈ l := by
  intro l
  induction l with
  | nil =>
    intro p hp
    simp [dirChildSpecs] at hp
  | cons e l ih =>
    intro p hp
    obtain ⟨n, t⟩ := e
    cases t with
    | dir es0 =>
      rw [show dirChildSpecs u ((n, FsTree.dir es0) :: l) =
        (Uri.joinPath u n, es0) :: dirChildSpecs u l from rfl] at hp
      rcases List.mem_cons.mp hp with h | h
      · exact ⟨n, es0, h, List.mem_cons_self _ _⟩
      · obtain ⟨n', es', heq, hmem⟩ := ih p h
        exact ⟨n', es', heq, List.mem_cons_of_mem _ hmem⟩
    | file s =>
      rw [show dirChildSpecs u ((n, FsTree.file s) :: l) =
        dirChildSpecs u l from rfl] at hp
      obtain ⟨n', es', heq, hmem⟩ := ih p hp
      exact ⟨n', es', heq, List.mem_cons_of_mem _ hmem⟩
    | link =>
      rw [show dirChildSpecs u ((n, FsTree.link) :: l) =
        dirChildSpecs u l from rfl] at hp
      obtain ⟨n', es', heq, hmem⟩ := ih p hp
      exact ⟨n', es', heq, List.mem_cons_of_mem _ hmem⟩

theorem childSpecs_nodes_le (u : Uri) :
    (es : FsForest) →
      ((dirChildSpecs u (forestEntries es)).map
        (fun p => 1 + forestNodes p.2)).sum ≤ forestNodes es
  | FsForest.nil => by
    simp [forestEntries, dirChildSpecs, forestNodes]
  | FsForest.cons n t rest => by
    have ih := childSpecs_nodes_le u rest
    cases t with
    | dir es0 =>
      show _ ≤ treeNodes (FsTree.dir es0) + forestNodes rest
      rw [show forestEntries (FsForest.cons n (FsTree.dir es0) rest) =
        (n, FsTree.dir es0) :: forestEntries rest from rfl]
      rw [show dirChildSpecs u ((n, FsTree.dir es0) :: forestEntries rest) =
        (Uri.joinPath u n, es0) :: dirChildSpecs u (forestEntries rest) from rfl]
      rw [List.map_cons, List.sum_cons]
      rw [show treeNodes (FsTree.dir es0) = 1 + forestNodes es0 from rfl]
      simp only []
      omega
    | file s =>
      show _ ≤ treeNodes (FsTree.file s) + forestNodes rest
      rw [show forestEntries (FsForest.cons n (FsTree.file s) rest) =
        (n, FsTree.file s) :: forestEntries rest from rfl]
      rw [show dirChildSpecs u ((n, FsTree.file s) :: forestEntries rest) =
        dirChildSpecs u (forestEntries rest) from rfl]
      rw [show treeNodes (FsTree.file s) = 1 from rfl]
      omega
    | link =>
      show _ ≤ treeNodes FsTree.link + forestNodes rest
      rw [show forestEntries (FsForest.cons n FsTree.link rest) =
        (n, FsTree.link) :: forestEntries rest from rfl]
      rw [show dirChildSpecs u ((n, FsTree.link) :: forestEntries rest) =
        dirChildSpecs u (forestEntries rest) from rfl]
      rw [show treeNodes FsTree.link = 1 from rfl]
      omega

theorem childSpecs_pairwise (u : Uri) :
    (es : FsForest) → wfForest es = true →
      List.Pairwise (fun a b : Uri × FsForest =>
        ∀ w, w ∈ dirUris a.1 a.2 → w ∉ dirUris b.1 b.2)
        (dirChildSpecs u (forestEntries es))
  | FsForest.nil, _ => by
    rw [show dirChildSpecs u (forestEntries FsForest.nil) = [] from rfl]
    exact List.Pairwise.nil
  | FsForest.cons n t rest, hwf => by
    obtain ⟨hv, hh, hwt, hwr⟩ := wfForest_cons_parts hwf
    have ihp := childSpecs_pairwise u rest hwr
    cases t with
    | dir es0 =>
      rw [show forestEntries (FsForest.cons n (FsTree.dir es0) rest) =
        (n, FsTree.dir es0) :: forestEntries rest from rfl]
      rw [show dirChildSpecs u ((n, FsTree.dir es0) :: forestEntries rest) =
        (Uri.joinPath u n, es0) :: dirChildSpecs u (forestEntries rest) from rfl]
      refine List.Pairwise.cons ?_ ihp
      intro b hb w hw
      obtain ⟨n', es', heq, hmem⟩ := mem_dirChildSpecs u (forestEntries rest) b hb
      have hne : n ≠ n' := by
        intro he
        rw [he] at hh
        rw [mem_entries_hasName n' (FsTree.dir es') rest hmem] at hh
        cases hh
      subst heq
      exact dirUris_child_disjoint_of_ne u n n' es0 es' hne w hw
    | file s =>
      rw [show forestEntries (FsForest.cons n (FsTree.file s) rest) =
        (n, FsTree.file s) :: forestEntries rest from rfl]
      rw [show dirChildSpecs u ((n, FsTree.file s) :: forestEntries rest) =
        dirChildSpecs u (forestEntries rest) from rfl]
      exact ihp
    | link =>
      rw [show forestEntries (FsForest.cons n FsTree.link rest) =
        (n, FsTree.link) :: forestEntries rest from rfl]
      rw [show dirChildSpecs u ((n, FsTree.link) :: forestEntries rest) =
        dirChildSpecs u (forestEntries rest) from rfl]
      exact ihp

theorem find_root_distinct :
    ∀ roots : List (String × FsForest), distinctRootNames roots = true →
      ∀ r ∈ roots, roots.find? (fun s => s.1 == r.1) = some r := by
  intro roots
  induction roots with
  | nil =>
    intro _ r hr
    cases hr
  | cons a rest ih =>
    intro hd r hr
    have hparts : (rest.any (fun s => s.1 == a.1)) = false ∧
        distinctRootNames rest = true := by
      unfold distinctRootNames at hd
      simp only [Bool.and_eq_true, Bool.not_eq_true'] at hd
      exact hd
    rcases List.mem_cons.mp hr with h | h
    · subst h
      exact List.find?_cons_of_pos _ (by simp)
    · have hne : (a.1 == r.1) = false := by
        by_cases hb : (a.1 == r.1) = true
        · have heq : a.1 = r.1 := eq_of_beq hb
          have hany : rest.any (fun s => s.1 == a.1) = true :=
            List.any_eq_true.mpr ⟨r, h, by rw [heq]; simp⟩
          rw [hparts.1] at hany
          cases hany
        · exact Bool.eq_false_iff.mpr hb
      rw [List.find?_cons_of_neg _ (by simp [hne])]
      exact ih hparts.2 r h

theorem forestLookup_root (roots : List (String × FsForest))
    (hd : distinctRootNames roots = true) (r : String × FsForest)
    (hr : r ∈ roots) :
    forestLookup roots (rootUri r) = some (FsTree.dir r.2) := by
  have hf := find_root_distinct roots hd r hr
  unfold forestLookup
  rw [show (rootUri r).root = r.1 from rfl, hf]
  simp [subtreeAt]

theorem disj_symm (a b : Uri × FsForest)
    (h : ∀ w, w ∈ dirUris a.1 a.2 → w ∉ dirUris b.1 b.2) :
    ∀ w, w ∈ dirUris b.1 b.2 → w ∉ dirUris a.1 a.2 :=
  fun w hwB hwA => h w hwA hwB

/-- The scan invariant: starting from a frontier whose elements resolve to
well-formed directory subtrees with pairwise disjoint territories, none
already visited, the traversal adds exactly the sum of the subtrees'
file sizes to the running total. -/
theorem scan_forest (roots : List (String × FsForest)) (n : Nat) :
    ∀ (K : Nat) (S : List (Uri × FsForest)) (visited : List Uri) (T : Nat),
      (S.map (fun p => 1 + forestNodes p.2)).sum ≤ K →
      (∀ p ∈ S, forestLookup roots p.1 = some (FsTree.dir p.2) ∧
        wfForest p.2 = true) →
      List.Pairwise (fun a b : Uri × FsForest =>
        ∀ w, w ∈ dirUris a.1 a.2 → w ∉ dirUris b.1 b.2) S →
      (∀ p ∈ S, ∀ w ∈ visited, w ∉ dirUris p.1 p.2) →
      scanLoop (fsOfForest roots) n false T (S.map Prod.fst) visited =
        T + (S.map (fun p => forestSize p.2)).sum := by
  intro K
  induction K with
  | zero =>
    intro S visited T hK hl hpw hvis
    match S with
    | [] =>
      rw [show (([] : List (Uri × FsForest)).map Prod.fst) = [] from rfl,
        scanLoop_nil]
      simp
    | p :: S' =>
      exfalso
      simp only [List.map_cons, List.sum_cons] at hK
      omega
  | succ K ih =>
    intro S visited T hK hl hpw hvis
    match S with
    | [] =>
      rw [show (([] : List (Uri × FsForest)).map Prod.fst) = [] from rfl,
        scanLoop_nil]
      simp
    | (u, es) :: S' =>
      have hhead := hl (u, es) (List.mem_cons_self _ _)
      have hlk : forestLookup roots u = some (FsTree.dir es) := hhead.1
      have hwf : wfForest es = true := hhead.2
      have hvis_head : ∀ w ∈ visited, w ∉ dirUris u es := by
        intro w hw
        exact hvis (u, es) (List.mem_cons_self _ _) w hw
      have hpw_head : ∀ b ∈ S', ∀ w, w ∈ dirUris u es → w ∉ dirUris b.1 b.2 :=
        (List.pairwise_cons.mp hpw).1
      have hpw_tail := (List.pairwise_cons.mp hpw).2
      have hnv : u ∉ visited := fun hc => hvis_head u hc (dirUris_self u es)
      have hread : (fsOfForest roots).readDir u = some (listingOf es) := by
        show forestReadDir roots u = _
        unfold forestReadDir
        rw [hlk]
      rw [show (((u, es) :: S').map Prod.fst) = u :: S'.map Prod.fst from rfl]
      rw [scanLoop_listOk (fsOfForest roots) n T u (S'.map Prod.fst) visited
        (listingOf es) hnv hread]
      have hcl : classifyEntries false u (listingOf es) =
          ((dirChildSpecs u (forestEntries es)).map Prod.fst,
            fileReqsOf u (forestEntries es)) := classify_listing u (forestEntries es)
      rw [hcl]
      simp only []
      have hresolve : ∀ e ∈ forestEntries es,
          forestLookup roots (Uri.joinPath u e.1) = some e.2 := by
        intro e he
        exact forestLookup_child roots u es e.1 e.2 hlk
          (wf_findEntry e.1 e.2 es hwf he)
      have hproc : processStatRequests (fsOfForest roots) n false
          (fileReqsOf u (forestEntries es))
          (T, ((dirChildSpecs u (forestEntries es)).map Prod.fst).reverse ++
            S'.map Prod.fst) =
          (T + fileSizesOf (forestEntries es),
            ((dirChildSpecs u (forestEntries es)).map Prod.fst).reverse ++
              S'.map Prod.fst) := by
        rw [processStatRequests_false]
        exact foldl_fileReqs_forest roots u (forestEntries es) hresolve T _
      rw [hproc]
      simp only []
      have hpendeq :
          ((dirChildSpecs u (forestEntries es)).map Prod.fst).reverse ++
            S'.map Prod.fst =
          (((dirChildSpecs u (forestEntries es)).reverse ++ S').map Prod.fst) := by
        rw [List.map_append, List.map_reverse]
      rw [hpendeq]
      have hchild_unpack : ∀ p ∈ (dirChildSpecs u (forestEntries es)).reverse,
          ∃ n' es', p = (Uri.joinPath u n', es') ∧
            (n', FsTree.dir es') ∈ forestEntries es := by
        intro p hp
        exact mem_dirChildSpecs u (forestEntries es) p (List.mem_reverse.mp hp)
      have hchild_sub : ∀ p ∈ (dirChildSpecs u (forestEntries es)).reverse,
          ∀ w, w ∈ dirUris p.1 p.2 → w ∈ dirUris u es := by
        intro p hp w hw
        obtain ⟨n', es', heq, hmem⟩ := hchild_unpack p hp
        subst heq
        exact dirUris_child_subset u n' es' es hmem w hw
      have hl' : ∀ p ∈ (dirChildSpecs u (forestEntries es)).reverse ++ S',
          forestLookup roots p.1 = some (FsTree.dir p.2) ∧ wfForest p.2 = true := by
        intro p hp
        rcases List.mem_append.mp hp with hp | hp
        · obtain ⟨n', es', heq, hmem⟩ := hchild_unpack p hp
          subst heq
          constructor
          · exact forestLookup_child roots u es n' (FsTree.dir es') hlk
              (wf_findEntry n' (FsTree.dir es') es hwf hmem)
          · exact wf_entry_wfTree n' (FsTree.dir es') es hwf hmem
        · exact hl p (List.mem_cons_of_mem _ hp)
      have hpw' : List.Pairwise (fun a b : Uri × FsForest =>
          ∀ w, w ∈ dirUris a.1 a.2 → w ∉ dirUris b.1 b.2)
          ((dirChildSpecs u (forestEntries es)).reverse ++ S') := by
        rw [List.pairwise_append]
        refine ⟨?_, hpw_tail, ?_⟩
        · rw [List.pairwise_reverse]
          exact (childSpecs_pairwise u es hwf).imp (fun h => disj_symm _ _ h)
        · intro a ha b hb w hw
          exact hpw_head b hb w (hchild_sub a ha w hw)
      have hvis' : ∀ p ∈ (dirChildSpecs u (forestEntries es)).reverse ++ S',
          ∀ w ∈ u :: visited, w ∉ dirUris p.1 p.2 := by
        intro p hp w hw
        rcases List.mem_cons.mp hw with hw | hw
        · rw [hw]
          rcases List.mem_append.mp hp with hp | hp
          · obtain ⟨n', es', heq, hmem⟩ := hchild_unpack p hp
            subst heq
            exact not_self_mem_child u n' es'
          · exact hpw_head p hp u (dirUris_self u es)
        · rcases List.mem_append.mp hp with hp | hp
          · intro hc
            exact hvis_head w hw (hchild_sub p hp w hc)
          · exact hvis p (List.mem_cons_of_mem _ hp) w hw
      have hK' : (((dirChildSpecs u (forestEntries es)).reverse ++ S').map
          (fun p => 1 + forestNodes p.2)).sum ≤ K := by
        rw [List.map_append, List.sum_append, List.map_reverse, List.sum_reverse]
        have h1 := childSpecs_nodes_le u es
        simp only [List.map_cons, List.sum_cons] at hK
        omega
      rw [ih ((dirChildSpecs u (forestEntries es)).reverse ++ S') (u :: visited)
        (T + fileSizesOf (forestEntries es)) hK' hl' hpw' hvis']
      rw [List.map_append, List.sum_append, List.map_reverse, List.sum_reverse]
      rw [show (((u, es) :: S').map (fun p => forestSize p.2)).sum =
        forestSize es + (S'.map (fun p => forestSize p.2)).sum from by
          rw [List.map_cons, List.sum_cons]]
      have hdec := forestSize_decomp u es
      omega

theorem calculateFolderSize_forest (roots : List (String × FsForest)) (n : Nat)
    (h : wfRoots roots = true) (r : String × FsForest) (hr : r ∈ roots) :
    calculateFolderSize (fsOfForest roots) n (rootUri r) false = forestSize r.2 := by
  have hd : distinctRootNames roots = true ∧
      roots.all (fun r => wfForest r.2) = true := by
    unfold wfRoots at h
    simp only [Bool.and_eq_true] at h
    exact h
  have hwf : wfForest r.2 = true := by
    have := List.all_eq_true.mp hd.2 r hr
    simpa using this
  unfold calculateFolderSize
  have hmaster := scan_forest roots n (1 + forestNodes r.2)
    [(rootUri r, r.2)] [] 0
    (by simp)
    (by
      intro p hp
      rcases List.mem_cons.mp hp with hp | hp
      · subst hp
        exact ⟨forestLookup_root roots hd.1 r hr, hwf⟩
      · cases hp)
    (List.pairwise_singleton _ _)
    (by
      intro p hp w hw
      cases hw)
  rw [show ([(rootUri r, r.2)].map Prod.fst) = [rootUri r] from rfl] at hmaster
  rw [hmaster]
  simp

theorem calculate_forest (roots : List (String × FsForest))
    (c : WorkspaceSizeCalculator) (h : wfRoots roots = true) :
    c.calculate (fsOfForest roots) (roots.map rootUri) false =
      roots.map (fun r => (rootUri r, forestSize r.2)) := by
  unfold WorkspaceSizeCalculator.calculate
  rw [List.map_map]
  apply List.map_congr_left
  intro r hr
  show (rootUri r, calculateFolderSize (fsOfForest roots) c.statConcurrency
    (rootUri r) false) = (rootUri r, forestSize r.2)
  rw [calculateFolderSize_forest roots c.statConcurrency h r hr]

/-- C1: on every well-formed forest of link-free workspace folders (all
reachable entries regular files or directories, sibling names valid and
pairwise distinct, folder identities distinct), `calculate` with a
never-cancelled token returns exactly one result per input folder, in the
caller's order, and each result's size is the exact sum of the sizes of
the regular files in that folder's tree — a quantity defined without
reference to any traversal order. -/
theorem calculate_exact_tree_sizes (roots : List (String × FsForest))
    (c : WorkspaceSizeCalculator) (h1 : wfRoots roots = true)
    (h2 : roots.all (fun r => linkFreeForest r.2) = true) :
    c.calculate (fsOfForest roots) (roots.map rootUri) false =
      roots.map (fun r => (rootUri r, forestSize r.2)) :=
  calculate_forest roots c h1

/-- Witness for C1: the spec's scenario — folder `A` empty, folder `B`
holding a 500-byte file and a subdirectory with a 300-byte file — yields
`[(A, 0), (B, 800)]` in input order. -/
theorem calculate_exact_tree_sizes_witness :
    (WorkspaceSizeCalculator.ofOptions none).calculate (fsOfForest rootsW)
      (rootsW.map rootUri) false =
      rootsW.map (fun r => (rootUri r, forestSize r.2)) ∧
    rootsW.map (fun r => (rootUri r, forestSize r.2)) =
      [(⟨"A", []⟩, 0), (⟨"B", []⟩, 800)] :=
  ⟨calculate_exact_tree_sizes rootsW _ (by decide) (by decide), by decide⟩

/-- C2 counterexample: the scan sizes targets reached through symbolic
links.  On a filesystem whose root's only entry `l` is listed with the
SymbolicLink bit set (tag SymbolicLink|Directory, as listing providers
report symlinks to directories), the 7-byte file behind the link is
counted: the root's total is 7, not 0 — so an entry whose listing type
tag carries the SymbolicLink bit is not skipped entirely, and targets
reached through a symbolic link do contribute to the total. -/
theorem symlink_target_contributes :
    calculateFolderSize fsC2 1 uriRoot2 false = 7 ∧ (7 : Nat) ≠ 0 := by
  constructor
  · unfold calculateFolderSize
    rw [scanLoop_listOk fsC2 1 0 uriRoot2 [] []
      [("l", FileType.SymbolicLink ||| FileType.Directory)] (by simp) rfl]
    have hclass1 : classifyEntries false uriRoot2
        [("l", FileType.SymbolicLink ||| FileType.Directory)] =
        ([uriL], []) := by decide
    rw [hclass1]
    have hstat1 : processStatRequests fsC2 1 false []
        (0, [uriL].reverse ++ []) = (0, [uriL]) := by
      rw [processStatRequests_false]
      decide
    rw [hstat1]
    rw [scanLoop_listOk fsC2 1 0 uriL [] [uriRoot2] [("g", FileType.File)]
      (by decide) rfl]
    have hclass2 : classifyEntries false uriL [("g", FileType.File)] =
        ([], [⟨uriLG, ReqKind.file⟩]) := by decide
    rw [hclass2]
    have hstat2 : processStatRequests fsC2 1 false [⟨uriLG, ReqKind.file⟩]
        (0, [].reverse ++ []) = (7, []) := by
      rw [processStatRequests_false]
      decide
    rw [hstat2]
    rw [scanLoop_nil]
  · decide

/-- C2 (amended): an entry whose listing tag carries the SymbolicLink bit
and neither the Directory nor the File bit is skipped entirely — neither
pushed onto the frontier nor statted — and on every well-formed forest
whose links are reported with exactly that tag, `calculate` returns the
exact per-folder sums of regular-file sizes, the links contributing
nothing.  (Entries combining SymbolicLink with Directory or File are
taken by the Directory/File branches instead, which are tested first;
the traversal itself is total and never lists a directory twice, so a
link cycle can cause neither non-termination nor double counting.) -/
theorem symlink_pure_tag_skipped :
    (∀ (u : Uri) (name : String) (t : Nat) (rest : List (String × Nat)),
      t &&& FileType.Directory = 0 → t &&& FileType.File = 0 →
      t &&& FileType.SymbolicLink ≠ 0 →
      classifyEntries false u ((name, t) :: rest) =
        classifyEntries false u rest) ∧
    (∀ (roots : List (String × FsForest)) (c : WorkspaceSizeCalculator),
      wfRoots roots = true →
      c.calculate (fsOfForest roots) (roots.map rootUri) false =
        roots.map (fun r => (rootUri r, forestSize r.2))) := by
  constructor
  · intro u name t rest h1 h2 h3
    rw [classifyEntries_cons, if_neg (not_not_intro h1),
      if_neg (not_not_intro h2), if_pos h3]
  · intro roots c h
    exact calculate_forest roots c h

/-- Witness for the amended C2: a pure-tag link entry is dropped by the
classifier, and a root holding such a link next to a 9-byte file totals
exactly 9. -/
theorem symlink_pure_tag_skipped_witness :
    classifyEntries false uriRoot2 [("lnk", FileType.SymbolicLink)] =
      classifyEntries false uriRoot2 [] ∧
    (WorkspaceSizeCalculator.ofOptions none).calculate (fsOfForest rootsW2)
      (rootsW2.map rootUri) false =
      rootsW2.map (fun r => (rootUri r, forestSize r.2)) ∧
    rootsW2.map (fun r => (rootUri r, forestSize r.2)) = [(⟨"R", []⟩, 9)] :=
  ⟨symlink_pure_tag_skipped.1 uriRoot2 "lnk" FileType.SymbolicLink []
      (by decide) (by decide) (by decide),
    symlink_pure_tag_skipped.2 rootsW2 _ (by decide),
    by decide⟩

end WorkspaceSize
